import Mathlib

/-!
# Marching squares (src/tema1_par.c): shallow embedding and verified properties

The C program keeps three shared buffers (image, occupancy grid, contour atlas) and lets
`P` workers run the phases rescale / sample / march over index partitions, separated by
barriers.  The embedding below translates each barrier-delimited piece of
`tema1_par.c` into a pure state transformer for ONE worker; a phase executed by all workers
is the left fold of that transformer over the list of worker ids (in any order).

Modelling conventions
* `int` values that are never negative (dimensions, loop counters, thread ids) are `Nat`;
  C integer division of non-negative values is `Nat` division.  Index expressions that
  contain a subtraction are evaluated in `Int`.  Sizes are assumed small enough that the
  32-bit `int` arithmetic of the program does not overflow (images are at most 2048 wide
  after the rescale phase).
* `unsigned char` is `Fin 256`; a conversion to `unsigned char` is an explicit `% 256`.
* `image->data` is the memory `Int → ppm_pixel` addressed by the C index expression.  What
  the program computes on the cells it reads and writes is stated on this memory; whether an
  index lies inside the allocation `[0, x*y)` is a separate question, answered on the lists
  of accesses (`sample_grid_reads`, `march_accesses`) that mirror the loops.
* The phases and barrier waits of a worker are the list `f_events`, read off the calls of
  `pthread_barrier_wait` in `f`, `rescale_image` and `sample_grid`.
-/

namespace MarchingSquares

/-! ## Data model -/

/-- The C type `unsigned char`. -/
abbrev uchar := Fin 256

/-- Modelled from the spec: the pixel type of `helpers.h` (not part of the sources), an RGB
triple of 8-bit samples with the fields `red`, `green`, `blue` used by `tema1_par.c`. -/
structure ppm_pixel where
  red : uchar
  green : uchar
  blue : uchar
deriving DecidableEq

/-- Modelled from the spec: the image type of `helpers.h` (not part of the sources):
dimensions `x`, `y` and the row-major sample array `data`, pixel `(r, c)` at index
`r * y + c`, as `tema1_par.c` uses it. -/
@[ext]
structure ppm_image where
  x : Nat
  y : Nat
  data : Int → ppm_pixel

/-- The occupancy grid `unsigned char **grid`; `grid i j` is `grid[i][j]`. -/
abbrev Grid := Nat → Nat → uchar

/-- The contour map `ppm_image **contour_map`; `contour_map k` is `contour_map[k]`. -/
abbrev ContourMap := Nat → ppm_image

def CONTOUR_CONFIG_COUNT : Nat := 16
def STEP : Nat := 8
def SIGMA : uchar := 200
def RESCALE_X : Nat := 2048
def RESCALE_Y : Nat := 2048

/-- The macro `MIN(a, b) ((a < (b)) ? (a) : (b))`. -/
def MIN (a b : Nat) : Nat := if a < b then a else b

/-- The loop `for (int i = lo; i < hi; i++) body`, as a state transformer. -/
def for_loop {σ : Type} (lo hi : Nat) (body : Nat → σ → σ) (s : σ) : σ :=
  (List.range' lo (hi - lo)).foldl (fun acc i => body i acc) s

/-- The assignment `grid[i][j] = v`. -/
def grid_set (grid : Grid) (i j : Nat) (v : uchar) : Grid :=
  fun i' j' => if i' = i ∧ j' = j then v else grid i' j'

/-- The assignment of all three channels of `image->data[idx]`. -/
def set_pixel (image : ppm_image) (idx : Int) (px : ppm_pixel) : ppm_image :=
  { image with data := fun k => if k = idx then px else image.data k }

/-- Pixel `(r, c)` of an image in the row-major layout of the program. -/
def pixel_at (image : ppm_image) (r c : Int) : ppm_pixel :=
  image.data (r * image.y + c)

/-! ## Work partition (lines 77-79, 114-115, 142-144, 179-181) -/

/-- The bound `start = thread_id * N / thread_count`. -/
def part_start (N thread_count thread_id : Nat) : Nat :=
  thread_id * N / thread_count

/-- The bound `end = MIN((thread_id + 1) * N / thread_count, N)`. -/
def part_end (N thread_count thread_id : Nat) : Nat :=
  MIN ((thread_id + 1) * N / thread_count) N

/-- Index `i` is visited by the loop `for (i = start; i < end; i++)` of worker `thread_id`. -/
def in_part (N thread_count thread_id i : Nat) : Prop :=
  part_start N thread_count thread_id ≤ i ∧ i < part_end N thread_count thread_id

instance (N P t i : Nat) : Decidable (in_part N P t i) := by
  unfold in_part; infer_instance

/-! ## update_image (lines 53-64) -/

/-- The function `update_image`: copies the pixels of `contour` into `image` at offset `(x, y)`. -/
def update_image (image contour : ppm_image) (x y : Nat) : ppm_image :=
  for_loop 0 contour.x (fun i image =>
    for_loop 0 contour.y (fun j image =>
      let contour_pixel_index : Int := ((contour.x * i + j : Nat) : Int)
      let image_pixel_index : Int := (((x + i) * image.y + y + j : Nat) : Int)
      set_pixel image image_pixel_index
        { red := (contour.data contour_pixel_index).red
          green := (contour.data contour_pixel_index).green
          blue := (contour.data contour_pixel_index).blue }) image) image

/-! ## sample_grid (lines 70-132), one definition per barrier-delimited sub-phase -/

/-- The block repeated at lines 85-91, 103-109 and 120-126: `curr_color` is the sum of the
three channels divided by 3, stored in an `unsigned char`; the cell is 0 when
`curr_color > sigma` and 1 otherwise. -/
def sample_cell (curr_pixel : ppm_pixel) (sigma : uchar) : uchar :=
  let curr_color : Nat :=
    (curr_pixel.red.val + curr_pixel.green.val + curr_pixel.blue.val) / 3 % 256
  if curr_color > sigma.val then 0 else 1

/-- Lines 71-94 of `sample_grid` (up to the first barrier) for one worker: the regular grid
and the corner cell `grid[p][q] = 0`. -/
def sample_grid_main (grid : Grid) (image : ppm_image) (step_x step_y : Nat) (sigma : uchar)
    (thread_count thread_id : Nat) : Grid :=
  let p := image.x / step_x
  let q := image.y / step_y
  let start := part_start p thread_count thread_id
  let end_ := part_end p thread_count thread_id
  let grid := for_loop start end_ (fun i grid =>
    for_loop 0 q (fun j grid =>
      let curr_pixel := image.data ((i * step_x * image.y + j * step_y : Nat) : Int)
      grid_set grid i j (sample_cell curr_pixel sigma)) grid) grid
  grid_set grid p q 0

/-- Lines 98-110 of `sample_grid` (between the first and second barrier) for one worker: the
right boundary column, read at index `i * step_x * image->y + image->x - 1`. -/
def sample_grid_right (grid : Grid) (image : ppm_image) (step_x step_y : Nat) (sigma : uchar)
    (thread_count thread_id : Nat) : Grid :=
  let p := image.x / step_x
  let q := image.y / step_y
  let start := part_start p thread_count thread_id
  let end_ := part_end p thread_count thread_id
  for_loop start end_ (fun i grid =>
    let curr_pixel := image.data (((i * step_x * image.y + image.x : Nat) : Int) - 1)
    grid_set grid i q (sample_cell curr_pixel sigma)) grid

/-- Lines 114-127 of `sample_grid` (between the second and third barrier) for one worker:
the bottom boundary row, read at index `(image->x - 1) * image->y + j * step_y`. -/
def sample_grid_bottom (grid : Grid) (image : ppm_image) (step_x step_y : Nat) (sigma : uchar)
    (thread_count thread_id : Nat) : Grid :=
  let p := image.x / step_x
  let q := image.y / step_y
  let start := part_start q thread_count thread_id
  let end_ := part_end q thread_count thread_id
  for_loop start end_ (fun j grid =>
    let curr_pixel := image.data (((image.x : Int) - 1) * (image.y : Int) + ((j * step_y : Nat) : Int))
    grid_set grid p j (sample_cell curr_pixel sigma)) grid

/-- The whole body of `sample_grid` for one worker, the three sub-phases in sequence (what
the call computes when no other worker writes in between, as with a single worker). -/
def sample_grid (grid : Grid) (image : ppm_image) (step_x step_y : Nat) (sigma : uchar)
    (thread_count thread_id : Nat) : Grid :=
  let grid := sample_grid_main grid image step_x step_y sigma thread_count thread_id
  let grid := sample_grid_right grid image step_x step_y sigma thread_count thread_id
  sample_grid_bottom grid image step_x step_y sigma thread_count thread_id

/-! ## march (lines 138-152) -/

/-- The configuration code of line 148, `unsigned char k = 8 * grid[i][j] + 4 * grid[i][j + 1]
+ 2 * grid[i + 1][j + 1] + 1 * grid[i + 1][j]`. -/
def config_code (grid : Grid) (i j : Nat) : Nat :=
  (8 * (grid i j).val + 4 * (grid i (j + 1)).val + 2 * (grid (i + 1) (j + 1)).val
    + 1 * (grid (i + 1) j).val) % 256

/-- The function `march` for one worker. -/
def march (image : ppm_image) (grid : Grid) (contour_map : ContourMap) (step_x step_y : Nat)
    (thread_count thread_id : Nat) : ppm_image :=
  let p := image.x / step_x
  let q := image.y / step_y
  let start := part_start p thread_count thread_id
  let end_ := part_end p thread_count thread_id
  for_loop start end_ (fun i image =>
    for_loop 0 q (fun j image =>
      let k := config_code grid i j
      update_image image (contour_map k) (i * step_x) (j * step_y)) image) image

/-! ## rescale_image (lines 171-199) -/

/-- The interpolation of `helpers.c` (not part of the sources) is a parameter:
`sample_bicubic image i j X Y` stands for the three bytes `sample[0..2]` that
`sample_bicubic(image, (float)i / (float)(X - 1), (float)j / (float)(Y - 1), sample)` stores. -/
abbrev Bicubic := ppm_image → Nat → Nat → Nat → Nat → ppm_pixel

/-- The function `rescale_image` for one worker.  The first component is the image the
returned pointer refers to, the second is the content of the buffer `new_image` after the
call. -/
def rescale_image (sample_bicubic : Bicubic) (new_image image : ppm_image)
    (thread_count thread_id : Nat) : ppm_image × ppm_image :=
  if image.x ≤ RESCALE_X ∧ image.y ≤ RESCALE_Y then
    (image, new_image)
  else
    let start := part_start new_image.x thread_count thread_id
    let end_ := part_end new_image.x thread_count thread_id
    let new_image := for_loop start end_ (fun i new_image =>
      for_loop 0 new_image.y (fun j new_image =>
        let sample := sample_bicubic image i j new_image.x new_image.y
        set_pixel new_image ((i * new_image.y + j : Nat) : Int) sample) new_image) new_image
    (new_image, new_image)

/-! ## The worker function f (lines 201-220) and the phases of a run -/

/-- The buffers the workers share through `params`. -/
structure Shared where
  image : ppm_image
  scaled_image : ppm_image
  contour_map : ContourMap
  grid : Grid

/-- Line 205 for worker `tid`: `*scaled_image = rescale_image(*scaled_image, *image, P, tid)`. -/
def f_rescale (sample_bicubic : Bicubic) (P tid : Nat) (s : Shared) : Shared :=
  { s with scaled_image := (rescale_image sample_bicubic s.scaled_image s.image P tid).1 }

/-- Line 210 for worker `tid`, up to the first barrier inside `sample_grid`. -/
def f_sample_main (P tid : Nat) (s : Shared) : Shared :=
  { s with grid := sample_grid_main s.grid s.scaled_image STEP STEP SIGMA P tid }

/-- Line 210 for worker `tid`, between the first and second barrier inside `sample_grid`. -/
def f_sample_right (P tid : Nat) (s : Shared) : Shared :=
  { s with grid := sample_grid_right s.grid s.scaled_image STEP STEP SIGMA P tid }

/-- Line 210 for worker `tid`, between the second and third barrier inside `sample_grid`. -/
def f_sample_bottom (P tid : Nat) (s : Shared) : Shared :=
  { s with grid := sample_grid_bottom s.grid s.scaled_image STEP STEP SIGMA P tid }

/-- Line 215 for worker `tid`. -/
def f_march (P tid : Nat) (s : Shared) : Shared :=
  { s with scaled_image := march s.scaled_image s.grid s.contour_map STEP STEP P tid }

/-- A barrier-delimited phase: the workers listed in `ws` execute `body`, one after the
other in the order of the list. -/
def run_phase {σ : Type} (ws : List Nat) (body : Nat → σ → σ) (s : σ) : σ :=
  ws.foldl (fun acc tid => body tid acc) s

/-- The three sub-phases of `sample_grid` executed by the workers in the orders `ws1`, `ws2`,
`ws3`. -/
def sample_grid_all (ws1 ws2 ws3 : List Nat) (grid : Grid) (image : ppm_image)
    (step_x step_y : Nat) (sigma : uchar) (thread_count : Nat) : Grid :=
  let grid := run_phase ws1 (fun tid g =>
    sample_grid_main g image step_x step_y sigma thread_count tid) grid
  let grid := run_phase ws2 (fun tid g =>
    sample_grid_right g image step_x step_y sigma thread_count tid) grid
  run_phase ws3 (fun tid g =>
    sample_grid_bottom g image step_x step_y sigma thread_count tid) grid

/-- The phase `march` executed by the workers in the order `ws`. -/
def march_all (ws : List Nat) (image : ppm_image) (grid : Grid) (contour_map : ContourMap)
    (step_x step_y : Nat) (thread_count : Nat) : ppm_image :=
  run_phase ws (fun tid im => march im grid contour_map step_x step_y thread_count tid) image

/-- A whole run of `P` workers executing `f`: the five phases, each completed by all the
workers (in the order given for that phase) before the next one starts. -/
def f_all (sample_bicubic : Bicubic) (P : Nat) (ws0 ws1 ws2 ws3 ws4 : List Nat)
    (s : Shared) : Shared :=
  let s := run_phase ws0 (f_rescale sample_bicubic P) s
  let s := run_phase ws1 (f_sample_main P) s
  let s := run_phase ws2 (f_sample_right P) s
  let s := run_phase ws3 (f_sample_bottom P) s
  run_phase ws4 (f_march P) s

/-- The workers `0 .. P-1` in some order. -/
def all_workers (P : Nat) (ws : List Nat) : Prop := ws.Perm (List.range P)

instance (P : Nat) (ws : List Nat) : Decidable (all_workers P ws) := by
  unfold all_workers; infer_instance

/-! ## What the phases are expected to leave in the buffers -/

/-- The grid `sample_grid` computes from `image`, cell by cell (read off the three loops). -/
def sampled (image : ppm_image) (step_x step_y : Nat) (sigma : uchar) : Grid :=
  fun i j =>
    if i < image.x / step_x then
      if j < image.y / step_y then
        sample_cell (image.data ((i * step_x * image.y + j * step_y : Nat) : Int)) sigma
      else
        sample_cell (image.data (((i * step_x * image.y + image.x : Nat) : Int) - 1)) sigma
    else
      if j < image.y / step_y then
        sample_cell (image.data (((image.x : Int) - 1) * (image.y : Int)
          + ((j * step_y : Nat) : Int))) sigma
      else 0

/-- The pixel `march` stores at index `k` when `k` lies in a stamped block. -/
def stamped (Y : Nat) (grid : Grid) (contour_map : ContourMap) (step_x step_y : Nat)
    (k : Int) : ppm_pixel :=
  let r := k.toNat / Y
  let c := k.toNat % Y
  (contour_map (config_code grid (r / step_x) (c / step_y))).data
    ((step_x * (r % step_x) + c % step_y : Nat) : Int)

/-- Index `k` is pixel `(i * step_x + a, j * step_y + b)` of some block `(i, j)` with
`i < p`, `j < q`, `a < step_x`, `b < step_y`, in an image with `Y` columns. -/
def in_blocks (Y p q step_x step_y : Nat) (k : Int) : Prop :=
  ∃ i j a b, i < p ∧ j < q ∧ a < step_x ∧ b < step_y ∧
    k = (((i * step_x + a) * Y + j * step_y + b : Nat) : Int)

/-- The luminance of a pixel as the program computes it: the integer quotient
`(R + G + B) / 3`. -/
def luminance (px : ppm_pixel) : Nat :=
  (px.red.val + px.green.val + px.blue.val) / 3

/-- The cell value for a pixel: 1 when its luminance is `<= sigma`, 0 otherwise. -/
def cell_of (px : ppm_pixel) (sigma : uchar) : uchar :=
  if luminance px ≤ sigma.val then 1 else 0

/-- An image of 8 rows and 16 columns, white everywhere except for the black pixel at the
end of row 0 (row 0, column 15). -/
def wide_image : ppm_image :=
  { x := 8
    y := 16
    data := fun k => if k = 15 then ⟨0, 0, 0⟩ else ⟨255, 255, 255⟩ }

/-- The white pixel (255, 255, 255). -/
def white : ppm_pixel := ⟨255, 255, 255⟩

/-- A tile of 8 x 8 pixels whose pixel at index `n` has the channels `(k, n % 256, 0)`. -/
def sample_tile (k : Nat) : ppm_image :=
  { x := 8
    y := 8
    data := fun n => ⟨Fin.ofNat k, Fin.ofNat n.toNat, 0⟩ }

/-- Shared buffers for a run on the 16 x 16 white image: the input image, an untouched
2048 x 2048 target buffer, the atlas of tiles `sample_tile k`, and a grid filled with 7. -/
def white_shared : Shared :=
  { image := ⟨16, 16, fun _ => white⟩
    scaled_image := ⟨2048, 2048, fun _ => ⟨0, 0, 0⟩⟩
    contour_map := sample_tile
    grid := fun _ _ => 7 }

/-- Shared buffers for a run on the 8 x 16 image `wide_image`. -/
def wide_shared : Shared :=
  { image := wide_image
    scaled_image := ⟨2048, 2048, fun _ => ⟨0, 0, 0⟩⟩
    contour_map := sample_tile
    grid := fun _ _ => 7 }

/-! ## Writes: a transformer that overwrites a set of cells with state-independent values -/

/-- The transformer `f` keeps `inv` and, on states satisfying it, sets every cell `k` in `W`
to `v k` and leaves every other cell as it was. -/
def Writes {σ K V : Type} (inv : σ → Prop) (get : σ → K → V) (f : σ → σ)
    (W : K → Prop) (v : K → V) : Prop :=
  ∀ s, inv s → inv (f s) ∧ ∀ k, (W k → get (f s) k = v k) ∧ (¬ W k → get (f s) k = get s k)

/-- Cell `(k.1, k.2)` of a grid. -/
def grid_get (g : Grid) (k : Nat × Nat) : uchar := g k.1 k.2

/-- No invariant is needed on grids. -/
def grid_inv (_ : Grid) : Prop := True

/-- Sample `k` of the pixel array of an image. -/
def img_get (image : ppm_image) (k : Int) : ppm_pixel := image.data k

/-- The dimensions of the image are `X` and `Y`. -/
def img_inv (X Y : Nat) (image : ppm_image) : Prop := image.x = X ∧ image.y = Y

/-- The tiles selected by the cells of the grid have the size of the step. -/
def tiles_fit (p q : Nat) (grid : Grid) (contour_map : ContourMap) (step_x step_y : Nat) : Prop :=
  ∀ i j, i < p → j < q →
    (contour_map (config_code grid i j)).x = step_x ∧
    (contour_map (config_code grid i j)).y = step_y

/-! ## Events of a worker: phases of work and barrier waits -/

/-- The events in the life of a worker: the start of a phase of work, a call of
`pthread_barrier_wait` (BARRIER), and the exit of the worker (DONE). -/
inductive Event where
  | RESCALE
  | SAMPLE_MAIN
  | SAMPLE_RIGHT
  | SAMPLE_BOTTOM
  | MARCH
  | BARRIER
  | DONE
deriving DecidableEq

/-- Events of one call of `rescale_image` (lines 171-199): the early return of line 176
leaves before the barrier wait of line 196, which only the interpolating path reaches. -/
def rescale_image_events (image : ppm_image) : List Event :=
  if image.x ≤ RESCALE_X ∧ image.y ≤ RESCALE_Y then
    [Event.RESCALE]
  else
    [Event.RESCALE, Event.BARRIER]

/-- Events of one call of `sample_grid` (lines 70-132): the three loops, each followed by
a barrier wait (lines 96, 112, 129). -/
def sample_grid_events : List Event :=
  [Event.SAMPLE_MAIN, Event.BARRIER, Event.SAMPLE_RIGHT, Event.BARRIER,
   Event.SAMPLE_BOTTOM, Event.BARRIER]

/-- Events of the worker function `f` (lines 201-220) on the input image `image`: the call
of `rescale_image`, the barrier wait of line 207, the call of `sample_grid`, the barrier
wait of line 212, `march`, the barrier wait of line 217, and `pthread_exit`. -/
def f_events (image : ppm_image) : List Event :=
  rescale_image_events image ++ [Event.BARRIER] ++ sample_grid_events ++ [Event.BARRIER]
    ++ [Event.MARCH] ++ [Event.BARRIER] ++ [Event.DONE]

/-- The sequence of states of a worker as the specification gives it, with one barrier
wait after each phase. -/
def spec_events : List Event :=
  [Event.RESCALE, Event.BARRIER, Event.SAMPLE_MAIN, Event.BARRIER, Event.SAMPLE_RIGHT,
   Event.BARRIER, Event.SAMPLE_BOTTOM, Event.BARRIER, Event.MARCH, Event.BARRIER, Event.DONE]

/-- Number of indices in the range of worker `thread_id`. -/
def part_size (N thread_count thread_id : Nat) : Nat :=
  part_end N thread_count thread_id - part_start N thread_count thread_id

/-! ## Memory accesses of the sampling and marching loops -/

/-- The accesses made by the loop `for (int i = lo; i < hi; i++)`, in program order, when
iteration `i` makes the accesses `body i`. -/
def for_collect {α : Type} (lo hi : Nat) (body : Nat → List α) : List α :=
  (List.range' lo (hi - lo)).flatMap body

/-- The indices of `image->data` read by one worker in the regular-grid loop (line 83). -/
def sample_grid_main_reads (image : ppm_image) (step_x step_y : Nat)
    (thread_count thread_id : Nat) : List Int :=
  let p := image.x / step_x
  let q := image.y / step_y
  let start := part_start p thread_count thread_id
  let end_ := part_end p thread_count thread_id
  for_collect start end_ (fun i =>
    for_collect 0 q (fun j => [((i * step_x * image.y + j * step_y : Nat) : Int)]))

/-- The indices of `image->data` read by one worker in the right-column loop (line 101). -/
def sample_grid_right_reads (image : ppm_image) (step_x : Nat)
    (thread_count thread_id : Nat) : List Int :=
  let p := image.x / step_x
  let start := part_start p thread_count thread_id
  let end_ := part_end p thread_count thread_id
  for_collect start end_ (fun i => [((i * step_x * image.y + image.x : Nat) : Int) - 1])

/-- The indices of `image->data` read by one worker in the bottom-row loop (line 118). -/
def sample_grid_bottom_reads (image : ppm_image) (step_y : Nat)
    (thread_count thread_id : Nat) : List Int :=
  let q := image.y / step_y
  let start := part_start q thread_count thread_id
  let end_ := part_end q thread_count thread_id
  for_collect start end_ (fun j =>
    [((image.x : Int) - 1) * (image.y : Int) + ((j * step_y : Nat) : Int)])

/-- All the indices of `image->data` read by one worker in `sample_grid`. -/
def sample_grid_reads (image : ppm_image) (step_x step_y : Nat)
    (thread_count thread_id : Nat) : List Int :=
  sample_grid_main_reads image step_x step_y thread_count thread_id
    ++ sample_grid_right_reads image step_x thread_count thread_id
    ++ sample_grid_bottom_reads image step_y thread_count thread_id

/-- Index `idx` lies inside the pixel array of `image`, of length `x * y`. -/
def in_image (image : ppm_image) (idx : Int) : Prop :=
  0 ≤ idx ∧ idx < ((image.x * image.y : Nat) : Int)

instance (image : ppm_image) (idx : Int) : Decidable (in_image image idx) := by
  unfold in_image; infer_instance

/-- An image of 16 rows and 1 column, all white. -/
def tall_image : ppm_image :=
  { x := 16
    y := 1
    data := fun _ => white }

/-- The memory accesses of `march` and `update_image`: a read of `grid[i][j]`, a read of
`contour_map[k]`, a read of `contour->data[idx]`, a write of `image->data[idx]`. -/
inductive Access where
  | grid_cell (i j : Nat)
  | atlas_entry (k : Nat)
  | tile_pixel (idx : Int)
  | image_pixel (idx : Int)
deriving DecidableEq

/-- The accesses of `update_image` (lines 54-63), in program order.  The number of columns
`image->y` is not changed by the writes, so it is taken from the image at the call. -/
def update_image_accesses (image contour : ppm_image) (x y : Nat) : List Access :=
  for_collect 0 contour.x (fun i =>
    for_collect 0 contour.y (fun j =>
      [Access.tile_pixel ((contour.x * i + j : Nat) : Int),
       Access.image_pixel (((x + i) * image.y + y + j : Nat) : Int)]))

/-- The accesses of `march` (lines 146-151) for one worker, in program order. -/
def march_accesses (image : ppm_image) (grid : Grid) (contour_map : ContourMap)
    (step_x step_y : Nat) (thread_count thread_id : Nat) : List Access :=
  let p := image.x / step_x
  let q := image.y / step_y
  let start := part_start p thread_count thread_id
  let end_ := part_end p thread_count thread_id
  for_collect start end_ (fun i =>
    for_collect 0 q (fun j =>
      let k := config_code grid i j
      [Access.grid_cell i j, Access.grid_cell i (j + 1), Access.grid_cell (i + 1) (j + 1),
       Access.grid_cell (i + 1) j, Access.atlas_entry k]
        ++ update_image_accesses image (contour_map k) (i * step_x) (j * step_y)))

/-- An access is in bounds: a grid cell inside the `(x/step + 1) x (y/step + 1)` grid, an
atlas entry among the `CONTOUR_CONFIG_COUNT` tiles, a tile index below `step * step`, an
image index inside the pixel array. -/
def Access.in_bounds (image : ppm_image) (step : Nat) : Access → Prop
  | Access.grid_cell i j => i < image.x / step + 1 ∧ j < image.y / step + 1
  | Access.atlas_entry k => k < CONTOUR_CONFIG_COUNT
  | Access.tile_pixel idx => 0 ≤ idx ∧ idx < ((step * step : Nat) : Int)
  | Access.image_pixel idx => in_image image idx

/-- An atlas whose 16 tiles are 8 x 8, followed in memory by a tile of 9 x 9. -/
def atlas_then_large : ContourMap :=
  fun k => if k < 16 then sample_tile k else ⟨9, 9, fun _ => white⟩

instance (image : ppm_image) (step : Nat) (a : Access) : Decidable (a.in_bounds image step) := by
  cases a <;> unfold Access.in_bounds <;> infer_instance

theorem part_end_eq (N P t : Nat) (ht : t < P) :
    part_end N P t = (t + 1) * N / P := by
  unfold part_end MIN
  split
  · rfl
  · rename_i h
    have h1 : (t + 1) * N / P ≤ N := by
      apply Nat.div_le_of_le_mul
      exact Nat.mul_le_mul_right N ht
    omega

theorem part_end_le (N P t : Nat) : part_end N P t ≤ N := by
  unfold part_end MIN
  split <;> omega

theorem part_end_le_start (N P t t' : Nat) (h : t < t') :
    part_end N P t ≤ part_start N P t' := by
  have h1 : part_end N P t ≤ (t + 1) * N / P := by
    unfold part_end MIN
    split <;> omega
  have h2 : (t + 1) * N / P ≤ t' * N / P :=
    Nat.div_le_div_right (Nat.mul_le_mul_right N h)
  exact le_trans h1 h2

theorem in_part_lt (N P t i : Nat) (h : in_part N P t i) : i < N :=
  lt_of_lt_of_le h.2 (part_end_le N P t)

theorem in_part_unique (N P t t' i : Nat) (h : in_part N P t i) (h' : in_part N P t' i) :
    t = t' := by
  rcases Nat.lt_trichotomy t t' with hlt | heq | hgt
  · have := part_end_le_start N P t t' hlt
    unfold in_part at h h'
    omega
  · exact heq
  · have := part_end_le_start N P t' t hgt
    unfold in_part at h h'
    omega

theorem in_part_exists (N P i : Nat) (hP : 0 < P) (hi : i < N) :
    ∃ t, t < P ∧ in_part N P t i := by
  have hN : 0 < N := by omega
  have hpos : 0 < (i + 1) * P := Nat.mul_pos (by omega) hP
  refine ⟨((i + 1) * P - 1) / N, ?_, ?_, ?_⟩
  · rw [Nat.div_lt_iff_lt_mul hN]
    have : (i + 1) * P ≤ N * P := Nat.mul_le_mul_right P hi
    rw [Nat.mul_comm P N]
    omega
  · unfold part_start
    have h1 : ((i + 1) * P - 1) / N * N ≤ (i + 1) * P - 1 := Nat.div_mul_le_self _ _
    have h2 : ((i + 1) * P - 1) / N * N / P < i + 1 := by
      rw [Nat.div_lt_iff_lt_mul hP]
      omega
    omega
  · have hlt : ((i + 1) * P - 1) / N < P := by
      rw [Nat.div_lt_iff_lt_mul hN]
      have : (i + 1) * P ≤ N * P := Nat.mul_le_mul_right P hi
      rw [Nat.mul_comm P N]
      omega
    rw [part_end_eq N P _ hlt]
    have h1 : (i + 1) * P - 1 < (((i + 1) * P - 1) / N + 1) * N := by
      have := Nat.lt_succ_self (((i + 1) * P - 1) / N)
      rw [Nat.div_lt_iff_lt_mul hN] at this
      exact this
    have h2 : i + 1 ≤ (((i + 1) * P - 1) / N + 1) * N / P := by
      rw [Nat.le_div_iff_mul_le hP]
      omega
    omega

/-! ## Composition of writes -/

theorem Writes.mono {σ K V : Type} {inv : σ → Prop} {get : σ → K → V} {f : σ → σ}
    {W W' : K → Prop} {v : K → V} (h : Writes inv get f W v) (hW : ∀ k, W k ↔ W' k) :
    Writes inv get f W' v := by
  intro s hs
  obtain ⟨h1, h2⟩ := h s hs
  refine ⟨h1, fun k => ⟨fun hk => (h2 k).1 ((hW k).2 hk), fun hk => (h2 k).2 ?_⟩⟩
  exact fun hk' => hk ((hW k).1 hk')

theorem Writes.id {σ K V : Type} (inv : σ → Prop) (get : σ → K → V) (v : K → V) :
    Writes inv get (fun s => s) (fun _ => False) v := by
  intro s hs
  exact ⟨hs, fun k => ⟨fun h => h.elim, fun _ => rfl⟩⟩

theorem Writes.comp {σ K V : Type} {inv : σ → Prop} {get : σ → K → V} {f g : σ → σ}
    {W1 W2 : K → Prop} {v : K → V} (hf : Writes inv get f W1 v) (hg : Writes inv get g W2 v) :
    Writes inv get (fun s => g (f s)) (fun k => W1 k ∨ W2 k) v := by
  intro s hs
  obtain ⟨hf1, hf2⟩ := hf s hs
  obtain ⟨hg1, hg2⟩ := hg (f s) hf1
  refine ⟨hg1, fun k => ⟨?_, ?_⟩⟩
  · intro hk
    by_cases h2 : W2 k
    · exact (hg2 k).1 h2
    · rw [(hg2 k).2 h2]
      rcases hk with h1 | h2'
      · exact (hf2 k).1 h1
      · exact (h2 h2').elim
  · intro hk
    have h1 : ¬ W1 k := fun h => hk (Or.inl h)
    have h2 : ¬ W2 k := fun h => hk (Or.inr h)
    rw [(hg2 k).2 h2, (hf2 k).2 h1]

theorem Writes.foldl {σ K V : Type} {inv : σ → Prop} {get : σ → K → V} {body : Nat → σ → σ}
    {W : Nat → K → Prop} {v : K → V} (l : List Nat)
    (h : ∀ i, i ∈ l → Writes inv get (body i) (W i) v) :
    Writes inv get (fun s => l.foldl (fun acc i => body i acc) s)
      (fun k => ∃ i, i ∈ l ∧ W i k) v := by
  induction l with
  | nil =>
    exact (Writes.id inv get v).mono (fun k => by simp)
  | cons a l ih =>
    have ha := h a (List.mem_cons_self a l)
    have hl := ih (fun i hi => h i (List.mem_cons_of_mem a hi))
    have hc := Writes.comp ha hl
    refine Writes.mono hc (fun k => ?_)
    constructor
    · rintro (h1 | ⟨i, hi, hk⟩)
      · exact ⟨a, List.mem_cons_self a l, h1⟩
      · exact ⟨i, List.mem_cons_of_mem a hi, hk⟩
    · rintro ⟨i, hi, hk⟩
      rcases List.mem_cons.1 hi with rfl | hi'
      · exact Or.inl hk
      · exact Or.inr ⟨i, hi', hk⟩

theorem Writes.for_loop {σ K V : Type} {inv : σ → Prop} {get : σ → K → V}
    {body : Nat → σ → σ} {W : Nat → K → Prop} {v : K → V} (lo hi : Nat)
    (h : ∀ i, lo ≤ i → i < hi → Writes inv get (body i) (W i) v) :
    Writes inv get (for_loop lo hi body) (fun k => ∃ i, lo ≤ i ∧ i < hi ∧ W i k) v := by
  have hmem : ∀ i, i ∈ List.range' lo (hi - lo) ↔ lo ≤ i ∧ i < hi := by
    intro i
    rw [List.mem_range'_1]
    omega
  have hf := @Writes.foldl σ K V inv get body W v (List.range' lo (hi - lo)) (fun i hi' => h i ((hmem i).1 hi').1 ((hmem i).1 hi').2)
  refine Writes.mono hf (fun k => ?_)
  constructor
  · rintro ⟨i, hi', hk⟩
    exact ⟨i, ((hmem i).1 hi').1, ((hmem i).1 hi').2, hk⟩
  · rintro ⟨i, h1, h2, hk⟩
    exact ⟨i, (hmem i).2 ⟨h1, h2⟩, hk⟩

theorem Writes.run_phase {σ K V : Type} {inv : σ → Prop} {get : σ → K → V}
    {body : Nat → σ → σ} {W : Nat → K → Prop} {v : K → V} (ws : List Nat)
    (h : ∀ t, t ∈ ws → Writes inv get (body t) (W t) v) :
    Writes inv get (run_phase ws body) (fun k => ∃ t, t ∈ ws ∧ W t k) v :=
  Writes.foldl ws h

theorem all_workers_mem {P : Nat} {ws : List Nat} (h : all_workers P ws) (t : Nat) :
    t ∈ ws ↔ t < P := by
  unfold all_workers at h
  rw [h.mem_iff, List.mem_range]

/-- When all workers `0 .. P-1` run, the indices visited by some worker are those of `[0, N)`. -/
theorem covered_iff {P : Nat} {ws : List Nat} (hP : 1 ≤ P) (h : all_workers P ws) (N i : Nat) :
    (∃ t, t ∈ ws ∧ in_part N P t i) ↔ i < N := by
  constructor
  · rintro ⟨t, _, ht⟩
    exact in_part_lt N P t i ht
  · intro hi
    obtain ⟨t, ht, hin⟩ := in_part_exists N P i hP hi
    exact ⟨t, (all_workers_mem h t).2 ht, hin⟩

/-! ## The sampling phases as writes into the grid -/

theorem grid_set_writes (i j : Nat) (val : uchar) (v : Nat × Nat → uchar) (hv : v (i, j) = val) :
    Writes grid_inv grid_get (fun g => grid_set g i j val) (fun k => k = (i, j)) v := by
  intro g _
  refine ⟨trivial, fun k => ⟨?_, ?_⟩⟩
  · intro hk
    subst hk
    simp [grid_get, grid_set, hv]
  · intro hk
    have : ¬ (k.1 = i ∧ k.2 = j) := by
      rintro ⟨h1, h2⟩
      exact hk (Prod.ext h1 h2)
    simp [grid_get, grid_set, this]

theorem sample_grid_main_writes (image : ppm_image) (step_x step_y : Nat) (sigma : uchar)
    (P t : Nat) :
    Writes grid_inv grid_get (fun g => sample_grid_main g image step_x step_y sigma P t)
      (fun k => (in_part (image.x / step_x) P t k.1 ∧ k.2 < image.y / step_y)
        ∨ k = (image.x / step_x, image.y / step_y))
      (fun k => sampled image step_x step_y sigma k.1 k.2) := by
  have hloop := @Writes.for_loop Grid (Nat × Nat) uchar grid_inv grid_get
    (fun i grid => for_loop 0 (image.y / step_y) (fun j grid =>
      grid_set grid i j (sample_cell
        (image.data ((i * step_x * image.y + j * step_y : Nat) : Int)) sigma)) grid)
    (fun i k => ∃ j, 0 ≤ j ∧ j < image.y / step_y ∧ k = (i, j))
    (fun k => sampled image step_x step_y sigma k.1 k.2)
    (part_start (image.x / step_x) P t) (part_end (image.x / step_x) P t)
    (fun i _ hi => Writes.for_loop 0 (image.y / step_y) (fun j _ hj =>
      grid_set_writes i j _ _ (by
        have hip : i < image.x / step_x := lt_of_lt_of_le hi (part_end_le _ _ _)
        simp [sampled, hip, hj])))
  have hcorner := grid_set_writes (image.x / step_x) (image.y / step_y) 0
    (fun k => sampled image step_x step_y sigma k.1 k.2) (by simp [sampled])
  refine Writes.mono (Writes.comp hloop hcorner) (fun k => ?_)
  constructor
  · rintro (⟨i, h1, h2, j, _, hj, rfl⟩ | h)
    · exact Or.inl ⟨⟨h1, h2⟩, hj⟩
    · exact Or.inr h
  · rintro (⟨⟨h1, h2⟩, hj⟩ | h)
    · exact Or.inl ⟨k.1, h1, h2, k.2, Nat.zero_le _, hj, rfl⟩
    · exact Or.inr h

theorem sample_grid_right_writes (image : ppm_image) (step_x step_y : Nat) (sigma : uchar)
    (P t : Nat) :
    Writes grid_inv grid_get (fun g => sample_grid_right g image step_x step_y sigma P t)
      (fun k => in_part (image.x / step_x) P t k.1 ∧ k.2 = image.y / step_y)
      (fun k => sampled image step_x step_y sigma k.1 k.2) := by
  have hloop := @Writes.for_loop Grid (Nat × Nat) uchar grid_inv grid_get
    (fun i grid => grid_set grid i (image.y / step_y) (sample_cell
      (image.data (((i * step_x * image.y + image.x : Nat) : Int) - 1)) sigma))
    (fun i k => k = (i, image.y / step_y))
    (fun k => sampled image step_x step_y sigma k.1 k.2)
    (part_start (image.x / step_x) P t) (part_end (image.x / step_x) P t)
    (fun i _ hi => grid_set_writes i _ _ _ (by
      have hip : i < image.x / step_x := lt_of_lt_of_le hi (part_end_le _ _ _)
      simp [sampled, hip]))
  refine Writes.mono hloop (fun k => ?_)
  constructor
  · rintro ⟨i, h1, h2, rfl⟩
    exact ⟨⟨h1, h2⟩, rfl⟩
  · rintro ⟨⟨h1, h2⟩, hq⟩
    exact ⟨k.1, h1, h2, Prod.ext rfl hq⟩

theorem sample_grid_bottom_writes (image : ppm_image) (step_x step_y : Nat) (sigma : uchar)
    (P t : Nat) :
    Writes grid_inv grid_get (fun g => sample_grid_bottom g image step_x step_y sigma P t)
      (fun k => k.1 = image.x / step_x ∧ in_part (image.y / step_y) P t k.2)
      (fun k => sampled image step_x step_y sigma k.1 k.2) := by
  have hloop := @Writes.for_loop Grid (Nat × Nat) uchar grid_inv grid_get
    (fun j grid => grid_set grid (image.x / step_x) j (sample_cell
      (image.data (((image.x : Int) - 1) * (image.y : Int) + ((j * step_y : Nat) : Int))) sigma))
    (fun j k => k = (image.x / step_x, j))
    (fun k => sampled image step_x step_y sigma k.1 k.2)
    (part_start (image.y / step_y) P t) (part_end (image.y / step_y) P t)
    (fun j _ hj => grid_set_writes _ j _ _ (by
      have hjq : j < image.y / step_y := lt_of_lt_of_le hj (part_end_le _ _ _)
      simp [sampled, hjq]))
  refine Writes.mono hloop (fun k => ?_)
  constructor
  · rintro ⟨j, h1, h2, rfl⟩
    exact ⟨rfl, h1, h2⟩
  · rintro ⟨hp, h1, h2⟩
    exact ⟨k.2, h1, h2, Prod.ext hp rfl⟩

/-- After the three sub-phases have been run by all workers, the cells of the
`(p+1) x (q+1)` grid hold the values of `sampled`, whatever the grid held before, and the
cells outside are untouched. -/
theorem sample_grid_all_spec (P : Nat) (hP : 1 ≤ P) (ws1 ws2 ws3 : List Nat)
    (h1 : all_workers P ws1) (h2 : all_workers P ws2) (h3 : all_workers P ws3)
    (grid : Grid) (image : ppm_image) (step_x step_y : Nat) (sigma : uchar) (i j : Nat) :
    (i ≤ image.x / step_x ∧ j ≤ image.y / step_y →
      sample_grid_all ws1 ws2 ws3 grid image step_x step_y sigma P i j
        = sampled image step_x step_y sigma i j) ∧
    (¬ (i ≤ image.x / step_x ∧ j ≤ image.y / step_y) →
      sample_grid_all ws1 ws2 ws3 grid image step_x step_y sigma P i j = grid i j) := by
  have hm := Writes.run_phase ws1
    (fun t _ => sample_grid_main_writes image step_x step_y sigma P t)
  have hr := Writes.run_phase ws2
    (fun t _ => sample_grid_right_writes image step_x step_y sigma P t)
  have hb := Writes.run_phase ws3
    (fun t _ => sample_grid_bottom_writes image step_x step_y sigma P t)
  have hall := Writes.comp (Writes.comp hm hr) hb
  have hW : ∀ k : Nat × Nat,
      (((∃ t, t ∈ ws1 ∧ ((in_part (image.x / step_x) P t k.1 ∧ k.2 < image.y / step_y)
          ∨ k = (image.x / step_x, image.y / step_y)))
        ∨ (∃ t, t ∈ ws2 ∧ (in_part (image.x / step_x) P t k.1 ∧ k.2 = image.y / step_y)))
        ∨ (∃ t, t ∈ ws3 ∧ (k.1 = image.x / step_x ∧ in_part (image.y / step_y) P t k.2)))
      ↔ (k.1 ≤ image.x / step_x ∧ k.2 ≤ image.y / step_y) := by
    intro k
    have c1 := covered_iff hP h1 (image.x / step_x) k.1
    have c2 := covered_iff hP h2 (image.x / step_x) k.1
    have c3 := covered_iff hP h3 (image.y / step_y) k.2
    have m1 : 0 ∈ ws1 := (all_workers_mem h1 0).2 (by omega)
    constructor
    · rintro ((⟨t, ht, (⟨hin, hlt⟩ | hk)⟩ | ⟨t, ht, hin, hq⟩) | ⟨t, ht, hp, hin⟩)
      · have := c1.1 ⟨t, ht, hin⟩
        omega
      · rw [hk]
        exact ⟨le_refl _, le_refl _⟩
      · have := c2.1 ⟨t, ht, hin⟩
        omega
      · have := c3.1 ⟨t, ht, hin⟩
        omega
    · rintro ⟨hi, hj⟩
      rcases Nat.lt_or_eq_of_le hi with hi' | hi'
      · rcases Nat.lt_or_eq_of_le hj with hj' | hj'
        · obtain ⟨t, ht, hin⟩ := c1.2 hi'
          exact Or.inl (Or.inl ⟨t, ht, Or.inl ⟨hin, hj'⟩⟩)
        · obtain ⟨t, ht, hin⟩ := c2.2 hi'
          exact Or.inl (Or.inr ⟨t, ht, hin, hj'⟩)
      · rcases Nat.lt_or_eq_of_le hj with hj' | hj'
        · obtain ⟨t, ht, hin⟩ := c3.2 hj'
          exact Or.inr ⟨t, ht, hi', hin⟩
        · exact Or.inl (Or.inl ⟨0, m1, Or.inr (Prod.ext hi' hj')⟩)
  have hfin := (Writes.mono hall hW) grid trivial
  exact ⟨fun h => (hfin.2 (i, j)).1 h, fun h => (hfin.2 (i, j)).2 h⟩

/-- With a single worker the phased run is the plain call of `sample_grid`. -/
theorem sample_grid_all_single (grid : Grid) (image : ppm_image) (step_x step_y : Nat)
    (sigma : uchar) (P t : Nat) :
    sample_grid_all [t] [t] [t] grid image step_x step_y sigma P
      = sample_grid grid image step_x step_y sigma P t := rfl

theorem sample_cell_eq (px : ppm_pixel) (sigma : uchar) :
    sample_cell px sigma = cell_of px sigma := by
  have h1 := px.red.isLt
  have h2 := px.green.isLt
  have h3 := px.blue.isLt
  have hlt : (px.red.val + px.green.val + px.blue.val) / 3 < 256 := by omega
  unfold sample_cell cell_of luminance
  simp only [Nat.mod_eq_of_lt hlt]
  by_cases h : (px.red.val + px.green.val + px.blue.val) / 3 ≤ sigma.val
  · have : ¬ (px.red.val + px.green.val + px.blue.val) / 3 > sigma.val := by omega
    simp [h, this]
  · have : (px.red.val + px.green.val + px.blue.val) / 3 > sigma.val := by omega
    simp [h, this]

theorem sample_cell_binary (px : ppm_pixel) (sigma : uchar) :
    sample_cell px sigma = 0 ∨ sample_cell px sigma = 1 := by
  simp only [sample_cell]
  split
  · exact Or.inl rfl
  · exact Or.inr rfl

theorem sampled_binary (image : ppm_image) (step_x step_y : Nat) (sigma : uchar) (i j : Nat) :
    sampled image step_x step_y sigma i j = 0 ∨ sampled image step_x step_y sigma i j = 1 := by
  unfold sampled
  split
  · split <;> exact sample_cell_binary _ _
  · split
    · exact sample_cell_binary _ _
    · exact Or.inl rfl

/-! ## The march phase as writes into the image -/

theorem set_pixel_writes (X Y : Nat) (idx_of : ppm_image → Int) (idx : Int) (px : ppm_pixel)
    (v : Int → ppm_pixel) (hidx : ∀ s, img_inv X Y s → idx_of s = idx) (hv : v idx = px) :
    Writes (img_inv X Y) img_get (fun im => set_pixel im (idx_of im) px) (fun k => k = idx) v := by
  intro s hs
  refine ⟨hs, fun k => ⟨?_, ?_⟩⟩
  · intro hk
    simp [img_get, set_pixel, hidx s hs, hk, hv]
  · intro hk
    simp [img_get, set_pixel, hidx s hs, hk]

theorem update_image_writes (X Y : Nat) (contour : ppm_image) (x y : Nat) (v : Int → ppm_pixel)
    (hv : ∀ a b, a < contour.x → b < contour.y →
      v (((x + a) * Y + y + b : Nat) : Int) = contour.data ((contour.x * a + b : Nat) : Int)) :
    Writes (img_inv X Y) img_get (fun im => update_image im contour x y)
      (fun k => ∃ a, 0 ≤ a ∧ a < contour.x ∧ ∃ b, 0 ≤ b ∧ b < contour.y ∧
        k = (((x + a) * Y + y + b : Nat) : Int)) v := by
  unfold update_image
  exact Writes.for_loop 0 contour.x (fun a _ ha =>
    Writes.for_loop 0 contour.y (fun b _ hb =>
      set_pixel_writes X Y (fun im => (((x + a) * im.y + y + b : Nat) : Int)) _ _ v
        (fun s hs => by simp only [hs.2]) (hv a b ha hb)))

theorem block_decompose (Y step_x step_y i j a b : Nat) (ha : a < step_x) (hb : b < step_y)
    (hj : j < Y / step_y) :
    ((i * step_x + a) * Y + j * step_y + b) / Y = i * step_x + a ∧
    ((i * step_x + a) * Y + j * step_y + b) % Y = j * step_y + b ∧
    (i * step_x + a) / step_x = i ∧ (i * step_x + a) % step_x = a ∧
    (j * step_y + b) / step_y = j ∧ (j * step_y + b) % step_y = b := by
  have hsx : 0 < step_x := by omega
  have hsy : 0 < step_y := by omega
  have hle : (j + 1) * step_y ≤ Y := (Nat.le_div_iff_mul_le hsy).1 hj
  have hc : j * step_y + b < Y := by
    have : (j + 1) * step_y = j * step_y + step_y := by ring
    omega
  have hY : 0 < Y := by omega
  have e1 : (i * step_x + a) * Y + j * step_y + b = (j * step_y + b) + (i * step_x + a) * Y := by
    ring
  have e2 : i * step_x + a = a + i * step_x := by ring
  have e3 : j * step_y + b = b + j * step_y := by ring
  refine ⟨?_, ?_, ?_, ?_, ?_, ?_⟩
  · rw [e1, Nat.add_mul_div_right _ _ hY, Nat.div_eq_of_lt hc, Nat.zero_add]
  · rw [e1, Nat.add_mul_mod_self_right, Nat.mod_eq_of_lt hc]
  · rw [e2, Nat.add_mul_div_right _ _ hsx, Nat.div_eq_of_lt ha, Nat.zero_add]
  · rw [e2, Nat.add_mul_mod_self_right, Nat.mod_eq_of_lt ha]
  · rw [e3, Nat.add_mul_div_right _ _ hsy, Nat.div_eq_of_lt hb, Nat.zero_add]
  · rw [e3, Nat.add_mul_mod_self_right, Nat.mod_eq_of_lt hb]

theorem stamped_block (Y : Nat) (grid : Grid) (contour_map : ContourMap)
    (step_x step_y i j a b : Nat) (ha : a < step_x) (hb : b < step_y) (hj : j < Y / step_y) :
    stamped Y grid contour_map step_x step_y
        ((((i * step_x + a) * Y + j * step_y + b : Nat)) : Int)
      = (contour_map (config_code grid i j)).data ((step_x * a + b : Nat) : Int) := by
  obtain ⟨h1, h2, h3, h4, h5, h6⟩ := block_decompose Y step_x step_y i j a b ha hb hj
  simp only [stamped, Int.toNat_ofNat, h1, h2, h3, h4, h5, h6]

theorem march_writes (X Y : Nat) (grid : Grid) (contour_map : ContourMap) (step_x step_y : Nat)
    (P t : Nat) (hfit : tiles_fit (X / step_x) (Y / step_y) grid contour_map step_x step_y) :
    Writes (img_inv X Y) img_get (fun im => march im grid contour_map step_x step_y P t)
      (fun k => ∃ i j a b, in_part (X / step_x) P t i ∧ j < Y / step_y ∧ a < step_x ∧
        b < step_y ∧ k = (((i * step_x + a) * Y + j * step_y + b : Nat) : Int))
      (stamped Y grid contour_map step_x step_y) := by
  have hloop := @Writes.for_loop ppm_image Int ppm_pixel (img_inv X Y) img_get
    (fun i image => for_loop 0 (Y / step_y) (fun j image =>
      update_image image (contour_map (config_code grid i j)) (i * step_x) (j * step_y)) image)
    (fun i k => ∃ j, 0 ≤ j ∧ j < Y / step_y ∧ ∃ a, 0 ≤ a ∧ a < step_x ∧ ∃ b, 0 ≤ b ∧
      b < step_y ∧ k = (((i * step_x + a) * Y + j * step_y + b : Nat) : Int))
    (stamped Y grid contour_map step_x step_y)
    (part_start (X / step_x) P t) (part_end (X / step_x) P t)
    (fun i _ hi => Writes.for_loop 0 (Y / step_y) (fun j _ hj => by
      have hip : i < X / step_x := lt_of_lt_of_le hi (part_end_le _ _ _)
      obtain ⟨hx, hy⟩ := hfit i j hip hj
      have hu := update_image_writes X Y (contour_map (config_code grid i j))
        (i * step_x) (j * step_y) (stamped Y grid contour_map step_x step_y)
        (fun a b ha hb => by
          rw [hx] at ha
          rw [hy] at hb
          rw [hx]
          exact stamped_block Y grid contour_map step_x step_y i j a b ha hb hj)
      rw [hx, hy] at hu
      exact hu))
  intro s hs
  have hm : march s grid contour_map step_x step_y P t
      = for_loop (part_start (X / step_x) P t) (part_end (X / step_x) P t)
        (fun i image => for_loop 0 (Y / step_y) (fun j image =>
          update_image image (contour_map (config_code grid i j)) (i * step_x) (j * step_y))
          image) s := by
    simp only [march, hs.1, hs.2]
  have h := hloop s hs
  simp only [hm]
  refine ⟨h.1, fun k => ⟨fun hk => (h.2 k).1 ?_, fun hk => (h.2 k).2 ?_⟩⟩
  · obtain ⟨i, j, a, b, hin, hj, ha, hb, hk⟩ := hk
    exact ⟨i, hin.1, hin.2, j, Nat.zero_le _, hj, a, Nat.zero_le _, ha, b, Nat.zero_le _, hb, hk⟩
  · rintro ⟨i, h1, h2, j, _, hj, a, _, ha, b, _, hb, hk'⟩
    exact hk ⟨i, j, a, b, ⟨h1, h2⟩, hj, ha, hb, hk'⟩

/-- After `march` has been run by all workers, the image has its dimensions, the pixels of
the stamped blocks hold the tile pixels of `stamped`, and all other pixels are untouched. -/
theorem march_all_spec (P : Nat) (hP : 1 ≤ P) (ws : List Nat) (hws : all_workers P ws)
    (image : ppm_image) (grid : Grid) (contour_map : ContourMap) (step_x step_y : Nat)
    (hfit : tiles_fit (image.x / step_x) (image.y / step_y) grid contour_map step_x step_y) :
    (march_all ws image grid contour_map step_x step_y P).x = image.x ∧
    (march_all ws image grid contour_map step_x step_y P).y = image.y ∧
    ∀ k,
      (in_blocks image.y (image.x / step_x) (image.y / step_y) step_x step_y k →
        (march_all ws image grid contour_map step_x step_y P).data k
          = stamped image.y grid contour_map step_x step_y k) ∧
      (¬ in_blocks image.y (image.x / step_x) (image.y / step_y) step_x step_y k →
        (march_all ws image grid contour_map step_x step_y P).data k = image.data k) := by
  have hall := Writes.run_phase ws
    (fun t _ => march_writes image.x image.y grid contour_map step_x step_y P t hfit)
  have hW : ∀ k : Int,
      (∃ t, t ∈ ws ∧ ∃ i j a b, in_part (image.x / step_x) P t i ∧ j < image.y / step_y ∧
        a < step_x ∧ b < step_y ∧
        k = (((i * step_x + a) * image.y + j * step_y + b : Nat) : Int))
      ↔ in_blocks image.y (image.x / step_x) (image.y / step_y) step_x step_y k := by
    intro k
    constructor
    · rintro ⟨t, ht, i, j, a, b, hin, hj, ha, hb, hk⟩
      exact ⟨i, j, a, b, (covered_iff hP hws _ i).1 ⟨t, ht, hin⟩, hj, ha, hb, hk⟩
    · rintro ⟨i, j, a, b, hi, hj, ha, hb, hk⟩
      obtain ⟨t, ht, hin⟩ := (covered_iff hP hws _ i).2 hi
      exact ⟨t, ht, i, j, a, b, hin, hj, ha, hb, hk⟩
  have hfin := (Writes.mono hall hW) image ⟨rfl, rfl⟩
  exact ⟨hfin.1.1, hfin.1.2, hfin.2⟩

theorem config_code_binary (grid : Grid) (i j : Nat)
    (ha : grid i j = 0 ∨ grid i j = 1) (hb : grid i (j + 1) = 0 ∨ grid i (j + 1) = 1)
    (hc : grid (i + 1) (j + 1) = 0 ∨ grid (i + 1) (j + 1) = 1)
    (hd : grid (i + 1) j = 0 ∨ grid (i + 1) j = 1) :
    config_code grid i j ≤ 15 ∧
    config_code grid i j = 8 * (grid i j).val + 4 * (grid i (j + 1)).val
      + 2 * (grid (i + 1) (j + 1)).val + (grid (i + 1) j).val := by
  unfold config_code
  rcases ha with ha | ha <;> rcases hb with hb | hb <;> rcases hc with hc | hc <;>
    rcases hd with hd | hd <;> simp [ha, hb, hc, hd]

/-- A binary grid and an atlas whose 16 tiles are `step x step` select fitting tiles. -/
theorem tiles_fit_of_binary (p q : Nat) (grid : Grid) (contour_map : ContourMap) (step : Nat)
    (hbin : ∀ i j, i ≤ p → j ≤ q → grid i j = 0 ∨ grid i j = 1)
    (hatlas : ∀ k, k < CONTOUR_CONFIG_COUNT →
      (contour_map k).x = step ∧ (contour_map k).y = step) :
    tiles_fit p q grid contour_map step step := by
  intro i j hi hj
  have hk := (config_code_binary grid i j (hbin i j (by omega) (by omega))
    (hbin i (j + 1) (by omega) (by omega)) (hbin (i + 1) (j + 1) (by omega) (by omega))
    (hbin (i + 1) j (by omega) (by omega))).1
  exact hatlas _ (by unfold CONTOUR_CONFIG_COUNT; omega)

/-- The result of the march phase depends neither on the number of workers nor on their
order. -/
theorem march_all_indep (P Q : Nat) (hP : 1 ≤ P) (hQ : 1 ≤ Q) (ws ws' : List Nat)
    (hws : all_workers P ws) (hws' : all_workers Q ws')
    (image : ppm_image) (grid : Grid) (contour_map : ContourMap) (step_x step_y : Nat)
    (hfit : tiles_fit (image.x / step_x) (image.y / step_y) grid contour_map step_x step_y) :
    march_all ws image grid contour_map step_x step_y P
      = march_all ws' image grid contour_map step_x step_y Q := by
  obtain ⟨hx, hy, hd⟩ := march_all_spec P hP ws hws image grid contour_map step_x step_y hfit
  obtain ⟨hx', hy', hd'⟩ := march_all_spec Q hQ ws' hws' image grid contour_map step_x step_y hfit
  apply ppm_image.ext
  · rw [hx, hx']
  · rw [hy, hy']
  · funext k
    by_cases hk : in_blocks image.y (image.x / step_x) (image.y / step_y) step_x step_y k
    · rw [(hd k).1 hk, (hd' k).1 hk]
    · rw [(hd k).2 hk, (hd' k).2 hk]

/-- The result of the sampling phases depends neither on the number of workers nor on their
order. -/
theorem sample_grid_all_indep (P Q : Nat) (hP : 1 ≤ P) (hQ : 1 ≤ Q)
    (ws1 ws2 ws3 vs1 vs2 vs3 : List Nat)
    (h1 : all_workers P ws1) (h2 : all_workers P ws2) (h3 : all_workers P ws3)
    (g1 : all_workers Q vs1) (g2 : all_workers Q vs2) (g3 : all_workers Q vs3)
    (grid : Grid) (image : ppm_image) (step_x step_y : Nat) (sigma : uchar) :
    sample_grid_all ws1 ws2 ws3 grid image step_x step_y sigma P
      = sample_grid_all vs1 vs2 vs3 grid image step_x step_y sigma Q := by
  funext i j
  have hs := sample_grid_all_spec P hP ws1 ws2 ws3 h1 h2 h3 grid image step_x step_y sigma i j
  have hs' := sample_grid_all_spec Q hQ vs1 vs2 vs3 g1 g2 g3 grid image step_x step_y sigma i j
  by_cases h : i ≤ image.x / step_x ∧ j ≤ image.y / step_y
  · rw [hs.1 h, hs'.1 h]
  · rw [hs.2 h, hs'.2 h]

theorem all_workers_ne_nil {P : Nat} {ws : List Nat} (hP : 1 ≤ P) (h : all_workers P ws) :
    ws ≠ [] := by
  intro hnil
  have := (all_workers_mem h 0).2 (by omega)
  rw [hnil] at this
  exact (List.not_mem_nil 0) this

theorem all_workers_one : all_workers 1 [0] := List.Perm.refl _

theorem f_rescale_small (sample_bicubic : Bicubic) (P tid : Nat) (s : Shared)
    (hx : s.image.x ≤ 2048) (hy : s.image.y ≤ 2048) :
    f_rescale sample_bicubic P tid s = { s with scaled_image := s.image } := by
  have h : s.image.x ≤ RESCALE_X ∧ s.image.y ≤ RESCALE_Y := ⟨hx, hy⟩
  simp [f_rescale, rescale_image, h]

theorem run_phase_rescale_small (sample_bicubic : Bicubic) (P : Nat) (ws : List Nat)
    (hne : ws ≠ []) (s : Shared) (hx : s.image.x ≤ 2048) (hy : s.image.y ≤ 2048) :
    run_phase ws (f_rescale sample_bicubic P) s = { s with scaled_image := s.image } := by
  have key : ∀ (l : List Nat) (s' : Shared), s'.image = s.image →
      s'.contour_map = s.contour_map → s'.grid = s.grid →
      (s'.scaled_image = s.image ∨ l ≠ []) →
      l.foldl (fun acc tid => f_rescale sample_bicubic P tid acc) s'
        = { s with scaled_image := s.image } := by
    intro l
    induction l with
    | nil =>
      intro s' hi hc hg hsc
      rcases hsc with hsc | hsc
      · cases s'
        simp only at hi hc hg hsc
        simp [hi, hc, hg, hsc]
      · exact (hsc rfl).elim
    | cons a l ih =>
      intro s' hi hc hg _
      rw [List.foldl_cons, f_rescale_small sample_bicubic P a s' (by rw [hi]; exact hx)
        (by rw [hi]; exact hy)]
      exact ih _ hi hc hg (Or.inl hi)
  exact key ws s rfl rfl rfl (Or.inr hne)

theorem run_phase_sample_main (P : Nat) (ws : List Nat) (s : Shared) :
    run_phase ws (f_sample_main P) s
      = { s with grid := run_phase ws (fun tid g =>
          sample_grid_main g s.scaled_image STEP STEP SIGMA P tid) s.grid } := by
  unfold run_phase
  induction ws generalizing s with
  | nil => rfl
  | cons a l ih =>
    rw [List.foldl_cons, List.foldl_cons, ih]
    rfl

theorem run_phase_sample_right (P : Nat) (ws : List Nat) (s : Shared) :
    run_phase ws (f_sample_right P) s
      = { s with grid := run_phase ws (fun tid g =>
          sample_grid_right g s.scaled_image STEP STEP SIGMA P tid) s.grid } := by
  unfold run_phase
  induction ws generalizing s with
  | nil => rfl
  | cons a l ih =>
    rw [List.foldl_cons, List.foldl_cons, ih]
    rfl

theorem run_phase_sample_bottom (P : Nat) (ws : List Nat) (s : Shared) :
    run_phase ws (f_sample_bottom P) s
      = { s with grid := run_phase ws (fun tid g =>
          sample_grid_bottom g s.scaled_image STEP STEP SIGMA P tid) s.grid } := by
  unfold run_phase
  induction ws generalizing s with
  | nil => rfl
  | cons a l ih =>
    rw [List.foldl_cons, List.foldl_cons, ih]
    rfl

theorem run_phase_march (P : Nat) (ws : List Nat) (s : Shared) :
    run_phase ws (f_march P) s
      = { s with scaled_image :=
            (march_all ws s.scaled_image s.grid s.contour_map STEP STEP P) } := by
  unfold march_all run_phase
  induction ws generalizing s with
  | nil => rfl
  | cons a l ih =>
    rw [List.foldl_cons, List.foldl_cons, ih]
    rfl

/-- A run on an image that needs no rescale: the grid is sampled from the input image and
the output image is the input image marched with that grid. -/
theorem f_all_small (sample_bicubic : Bicubic) (P : Nat) (ws0 ws1 ws2 ws3 ws4 : List Nat)
    (hne : ws0 ≠ []) (s : Shared) (hx : s.image.x ≤ 2048) (hy : s.image.y ≤ 2048) :
    f_all sample_bicubic P ws0 ws1 ws2 ws3 ws4 s
      = { image := s.image
          scaled_image := (march_all ws4 s.image
            (sample_grid_all ws1 ws2 ws3 s.grid s.image STEP STEP SIGMA P)
            s.contour_map STEP STEP P)
          contour_map := s.contour_map
          grid := sample_grid_all ws1 ws2 ws3 s.grid s.image STEP STEP SIGMA P } := by
  unfold f_all
  simp only [run_phase_rescale_small sample_bicubic P ws0 hne s hx hy, run_phase_sample_main,
    run_phase_sample_right, run_phase_sample_bottom, run_phase_march]
  rfl

/-! ## Arithmetic of indices and of the partition sizes -/

theorem mul_step_le {x s i : Nat} (hi : i < x / s) : i * s + s ≤ x := by
  have hs : 0 < s := by
    rcases Nat.eq_zero_or_pos s with h | h
    · rw [h, Nat.div_zero] at hi
      omega
    · exact h
  have h := (Nat.le_div_iff_mul_le hs).1 hi
  calc i * s + s = (i + 1) * s := by ring
    _ ≤ x := h

/-- The pixel `(i * step_x, j * step_y)` read by the regular grid lies inside the array. -/
theorem regular_index_lt (x y step_x step_y i j : Nat) (hi : i < x / step_x)
    (hj : j < y / step_y) : i * step_x * y + j * step_y < x * y := by
  have h1 := mul_step_le hi
  have h2 := mul_step_le hj
  have hsx : 0 < step_x := by
    rcases Nat.eq_zero_or_pos step_x with h | h
    · rw [h, Nat.div_zero] at hi
      omega
    · exact h
  have hsy : 0 < step_y := by
    rcases Nat.eq_zero_or_pos step_y with h | h
    · rw [h, Nat.div_zero] at hj
      omega
    · exact h
  have h3 : (i * step_x + 1) * y ≤ x * y := Nat.mul_le_mul_right y (by omega)
  calc i * step_x * y + j * step_y < i * step_x * y + y := by omega
    _ = (i * step_x + 1) * y := by ring
    _ ≤ x * y := h3

theorem for_loop_inv {σ : Type} (inv : σ → Prop) (lo hi : Nat) (body : Nat → σ → σ)
    (h : ∀ i s, inv s → inv (body i s)) (s : σ) (hs : inv s) :
    inv (for_loop lo hi body s) := by
  unfold for_loop
  generalize List.range' lo (hi - lo) = l
  induction l generalizing s with
  | nil => exact hs
  | cons a l ih => exact ih _ (h a s hs)

theorem rescale_loop_inv (sample_bicubic : Bicubic) (new_image image : ppm_image)
    (thread_count thread_id : Nat) :
    img_inv new_image.x new_image.y
      (for_loop (part_start new_image.x thread_count thread_id)
        (part_end new_image.x thread_count thread_id) (fun i new_image =>
          for_loop 0 new_image.y (fun j new_image =>
            let sample := sample_bicubic image i j new_image.x new_image.y
            set_pixel new_image ((i * new_image.y + j : Nat) : Int) sample) new_image)
        new_image) := by
  apply for_loop_inv (img_inv new_image.x new_image.y)
  · intro i s hs
    apply for_loop_inv (img_inv new_image.x new_image.y)
    · intro j s' hs'
      exact hs'
    · exact hs
  · exact ⟨rfl, rfl⟩

/-- The size of a range is `N / P`, or `N / P + 1` and then `P` does not divide `N`. -/
theorem part_size_cases (N P t : Nat) (hP : 1 ≤ P) (ht : t < P) :
    part_size N P t = N / P ∨ (part_size N P t = N / P + 1 ∧ N % P ≠ 0) := by
  unfold part_size part_start
  rw [part_end_eq N P t ht]
  have hP0 : 0 < P := hP
  have e1 := Nat.div_add_mod (t * N) P
  have e2 := Nat.div_add_mod N P
  have r1 := Nat.mod_lt (t * N) hP0
  have r2 := Nat.mod_lt N hP0
  have e3 : (t + 1) * N = (t * N % P + N % P) + P * (t * N / P + N / P) := by
    have : (t + 1) * N = t * N + N := by ring
    rw [this, Nat.mul_add]
    linarith
  rw [e3, Nat.add_mul_div_left _ _ hP0]
  by_cases hlt : t * N % P + N % P < P
  · rw [Nat.div_eq_of_lt hlt]
    left
    generalize t * N / P = A
    generalize N / P = B
    omega
  · have hone : (t * N % P + N % P) / P = 1 := by
      apply Nat.div_eq_of_lt_le <;> omega
    rw [hone]
    right
    constructor
    · generalize t * N / P = A
      generalize N / P = B
      omega
    · omega

theorem ceil_div_of_not_dvd (N P : Nat) (hP : 1 ≤ P) (h : N % P ≠ 0) :
    (N + P - 1) / P = N / P + 1 := by
  have hP0 : 0 < P := hP
  have e2 := Nat.div_add_mod N P
  have r2 := Nat.mod_lt N hP0
  have e : N + P - 1 = (N % P - 1) + P * (N / P + 1) := by
    have : P * (N / P + 1) = P * (N / P) + P := by ring
    rw [this]
    omega
  rw [e, Nat.add_mul_div_left _ _ hP0, Nat.div_eq_of_lt (by omega)]
  omega

/-! ## Lemmas on accesses and footprints -/

theorem mem_for_collect {α : Type} (lo hi : Nat) (body : Nat → List α) (a : α) :
    a ∈ for_collect lo hi body ↔ ∃ i, lo ≤ i ∧ i < hi ∧ a ∈ body i := by
  unfold for_collect
  rw [List.mem_flatMap]
  constructor
  · rintro ⟨i, hi, ha⟩
    rw [List.mem_range'_1] at hi
    exact ⟨i, hi.1, by omega, ha⟩
  · rintro ⟨i, h1, h2, ha⟩
    exact ⟨i, by rw [List.mem_range'_1]; omega, ha⟩

/-- Pixel `(r, c)` with `r < x` and `c < y` has its index inside the array. -/
theorem pixel_index_lt (r c x y : Nat) (hr : r < x) (hc : c < y) : r * y + c < x * y := by
  have h : (r + 1) * y ≤ x * y := Nat.mul_le_mul_right y hr
  calc r * y + c < r * y + y := by omega
    _ = (r + 1) * y := by ring
    _ ≤ x * y := h

/-- A row-major index determines its row and column. -/
theorem pixel_index_inj (r c r' c' y : Nat) (hc : c < y) (hc' : c' < y)
    (h : r * y + c = r' * y + c') : r = r' ∧ c = c' := by
  have hy : 0 < y := by omega
  have e1 : (r * y + c) / y = r := by
    rw [Nat.add_comm, Nat.add_mul_div_right _ _ hy, Nat.div_eq_of_lt hc, Nat.zero_add]
  have e2 : (r' * y + c') / y = r' := by
    rw [Nat.add_comm, Nat.add_mul_div_right _ _ hy, Nat.div_eq_of_lt hc', Nat.zero_add]
  have hr : r = r' := by rw [← e1, ← e2, h]
  subst hr
  exact ⟨rfl, by omega⟩

/-- The rows of the blocks of worker `t`: block row `i` of its range covers the pixel rows
`i * step .. i * step + step - 1`, all inside `[start * step, end * step)`. -/
theorem block_row_range (N P t step i a : Nat) (hin : in_part N P t i) (ha : a < step) :
    part_start N P t * step ≤ i * step + a ∧ i * step + a < part_end N P t * step := by
  have h1 : part_start N P t * step ≤ i * step := Nat.mul_le_mul_right step hin.1
  have h2 : (i + 1) * step ≤ part_end N P t * step := Nat.mul_le_mul_right step hin.2
  have e : (i + 1) * step = i * step + step := by ring
  constructor
  · omega
  · omega

theorem block_col_range (y step j b : Nat) (hj : j < y / step) (hb : b < step) :
    j * step + b < y / step * step ∧ y / step * step ≤ y := by
  have h2 : (j + 1) * step ≤ y / step * step := Nat.mul_le_mul_right step hj
  have e : (j + 1) * step = j * step + step := by ring
  exact ⟨by omega, Nat.div_mul_le_self y step⟩

/-- What one call of `march` leaves unchanged: every sample whose index is not that of a
pixel in the row blocks of the worker and in the columns `[0, q * step)`. -/
theorem march_frame (image : ppm_image) (grid : Grid) (contour_map : ContourMap) (step : Nat)
    (P t : Nat)
    (hfit : tiles_fit (image.x / step) (image.y / step) grid contour_map step step)
    (k : Int)
    (hk : ¬ ∃ r c : Nat, part_start (image.x / step) P t * step ≤ r ∧
      r < part_end (image.x / step) P t * step ∧ c < image.y / step * step ∧
      k = ((r * image.y + c : Nat) : Int)) :
    (march image grid contour_map step step P t).data k = image.data k := by
  have h := march_writes image.x image.y grid contour_map step step P t hfit image ⟨rfl, rfl⟩
  apply (h.2 k).2
  rintro ⟨i, j, a, b, hin, hj, ha, hb, rfl⟩
  apply hk
  have hr := block_row_range (image.x / step) P t step i a hin ha
  have hc := block_col_range image.y step j b hj hb
  refine ⟨i * step + a, j * step + b, hr.1, hr.2, hc.1, ?_⟩
  rw [Nat.add_assoc]

theorem march_dims (image : ppm_image) (grid : Grid) (contour_map : ContourMap) (step : Nat)
    (P t : Nat)
    (hfit : tiles_fit (image.x / step) (image.y / step) grid contour_map step step) :
    (march image grid contour_map step step P t).x = image.x ∧
    (march image grid contour_map step step P t).y = image.y :=
  (march_writes image.x image.y grid contour_map step step P t hfit image ⟨rfl, rfl⟩).1

/-- The reads of the regular grid and of the bottom row lie inside the pixel array; so do
the reads of the right column when `x <= step_x * y` (as on square images). -/
theorem sample_grid_reads_in_image (image : ppm_image) (step_x step_y P t : Nat)
    (hx : 1 ≤ image.x) :
    (∀ idx, idx ∈ sample_grid_main_reads image step_x step_y P t → in_image image idx) ∧
    (∀ idx, idx ∈ sample_grid_bottom_reads image step_y P t → in_image image idx) ∧
    (image.x ≤ step_x * image.y →
      ∀ idx, idx ∈ sample_grid_right_reads image step_x P t → in_image image idx) := by
  refine ⟨?_, ?_, ?_⟩
  · intro idx h
    simp only [sample_grid_main_reads, mem_for_collect, List.mem_singleton] at h
    obtain ⟨i, _, hi, j, _, hj, rfl⟩ := h
    have hip : i < image.x / step_x := lt_of_lt_of_le hi (part_end_le _ _ _)
    exact ⟨Int.ofNat_nonneg _, Int.ofNat_lt.2 (regular_index_lt _ _ _ _ i j hip hj)⟩
  · intro idx h
    simp only [sample_grid_bottom_reads, mem_for_collect, List.mem_singleton] at h
    obtain ⟨j, _, hj, rfl⟩ := h
    have hjq : j < image.y / step_y := lt_of_lt_of_le hj (part_end_le _ _ _)
    have hc := mul_step_le hjq
    have hsy : 0 < step_y := by
      rcases Nat.eq_zero_or_pos step_y with h0 | h0
      · rw [h0, Nat.div_zero] at hjq
        omega
      · exact h0
    have hlt := pixel_index_lt (image.x - 1) (j * step_y) image.x image.y (by omega) (by omega)
    have e : ((image.x : Int) - 1) * (image.y : Int) + ((j * step_y : Nat) : Int)
        = (((image.x - 1) * image.y + j * step_y : Nat) : Int) := by
      push_cast [Nat.cast_sub hx]
      ring
    rw [e]
    exact ⟨Int.ofNat_nonneg _, Int.ofNat_lt.2 hlt⟩
  · intro hle idx h
    simp only [sample_grid_right_reads, mem_for_collect, List.mem_singleton] at h
    obtain ⟨i, _, hi, rfl⟩ := h
    have hip : i < image.x / step_x := lt_of_lt_of_le hi (part_end_le _ _ _)
    have hr := mul_step_le hip
    have h1 : (i * step_x + step_x) * image.y ≤ image.x * image.y :=
      Nat.mul_le_mul_right _ hr
    have e1 : (i * step_x + step_x) * image.y = i * step_x * image.y + step_x * image.y := by
      ring
    unfold in_image
    constructor
    · omega
    · have : i * step_x * image.y + image.x ≤ image.x * image.y := by omega
      omega

/-- With a binary grid and 16 tiles of `step x step`, every access of `march` is in
bounds. -/
theorem march_accesses_ok (image : ppm_image) (grid : Grid) (contour_map : ContourMap)
    (step P t : Nat)
    (hbin : ∀ i j, i ≤ image.x / step → j ≤ image.y / step → grid i j = 0 ∨ grid i j = 1)
    (hatlas : ∀ k, k < CONTOUR_CONFIG_COUNT →
      (contour_map k).x = step ∧ (contour_map k).y = step)
    (a : Access) (ha : a ∈ march_accesses image grid contour_map step step P t) :
    a.in_bounds image step := by
  simp only [march_accesses, mem_for_collect, List.mem_append] at ha
  obtain ⟨i, _, hi, j, _, hj, hmem⟩ := ha
  have hip : i < image.x / step := lt_of_lt_of_le hi (part_end_le _ _ _)
  have hk := (config_code_binary grid i j (hbin i j (by omega) (by omega))
    (hbin i (j + 1) (by omega) (by omega)) (hbin (i + 1) (j + 1) (by omega) (by omega))
    (hbin (i + 1) j (by omega) (by omega))).1
  have hk16 : config_code grid i j < CONTOUR_CONFIG_COUNT := by
    unfold CONTOUR_CONFIG_COUNT
    omega
  rcases hmem with hmem | hmem
  · simp only [List.mem_cons, List.mem_singleton, List.not_mem_nil, or_false] at hmem
    rcases hmem with rfl | rfl | rfl | rfl | rfl
    · exact ⟨by omega, by omega⟩
    · exact ⟨by omega, by omega⟩
    · exact ⟨by omega, by omega⟩
    · exact ⟨by omega, by omega⟩
    · exact hk16
  · obtain ⟨hx, hy⟩ := hatlas _ hk16
    simp only [update_image_accesses, mem_for_collect, hx, hy, List.mem_cons,
      List.mem_singleton, List.not_mem_nil, or_false] at hmem
    obtain ⟨u, _, hu, v, _, hv, hmem⟩ := hmem
    have hr := mul_step_le hip
    have hc := mul_step_le hj
    rcases hmem with rfl | rfl
    · refine ⟨Int.ofNat_nonneg _, Int.ofNat_lt.2 ?_⟩
      have := pixel_index_lt u v step step hu hv
      rw [Nat.mul_comm step u]
      exact this
    · refine ⟨Int.ofNat_nonneg _, Int.ofNat_lt.2 ?_⟩
      have := pixel_index_lt (i * step + u) (j * step + v) image.x image.y (by omega)
        (by omega)
      rw [Nat.add_assoc]
      exact this

/-- After the march phase, pixel `(i*step + a, j*step + b)` of the image is pixel `(a, b)`
of the tile selected by the four corners of cell `(i, j)`. -/
theorem march_all_pixel (P : Nat) (hP : 1 ≤ P) (ws : List Nat) (hws : all_workers P ws)
    (image : ppm_image) (grid : Grid) (contour_map : ContourMap) (step : Nat)
    (hbin : ∀ i j, i ≤ image.x / step → j ≤ image.y / step → grid i j = 0 ∨ grid i j = 1)
    (hatlas : ∀ k, k < CONTOUR_CONFIG_COUNT →
      (contour_map k).x = step ∧ (contour_map k).y = step)
    (i j a b : Nat) (hi : i < image.x / step) (hj : j < image.y / step)
    (ha : a < step) (hb : b < step) :
    pixel_at (march_all ws image grid contour_map step step P)
        ((i * step + a : Nat) : Int) ((j * step + b : Nat) : Int)
      = pixel_at (contour_map (config_code grid i j)) (a : Int) (b : Int) := by
  have hfit := tiles_fit_of_binary _ _ grid contour_map step hbin hatlas
  obtain ⟨_, hy', hd⟩ := march_all_spec P hP ws hws image grid contour_map step step hfit
  have hty := (hfit i j hi hj).2
  have hidx : ((i * step + a : Nat) : Int) * (image.y : Int) + ((j * step + b : Nat) : Int)
      = (((i * step + a) * image.y + j * step + b : Nat) : Int) := by
    push_cast; ring
  have hidx' : (a : Int) * (step : Int) + (b : Int) = ((step * a + b : Nat) : Int) := by
    push_cast; ring
  unfold pixel_at
  rw [hy', hidx, (hd _).1 ⟨i, j, a, b, hi, hj, ha, hb, rfl⟩,
    stamped_block image.y grid contour_map step step i j a b ha hb hj, hty, hidx']

/-- The march phase does not touch the memory outside the pixel array. -/
theorem march_all_outside (P : Nat) (hP : 1 ≤ P) (ws : List Nat) (hws : all_workers P ws)
    (image : ppm_image) (grid : Grid) (contour_map : ContourMap) (step : Nat)
    (hfit : tiles_fit (image.x / step) (image.y / step) grid contour_map step step)
    (k : Int) (hk : ¬ in_image image k) :
    (march_all ws image grid contour_map step step P).data k = image.data k := by
  obtain ⟨_, _, hd⟩ := march_all_spec P hP ws hws image grid contour_map step step hfit
  apply (hd k).2
  rintro ⟨i, j, a, b, hi, hj, ha, hb, rfl⟩
  apply hk
  have hr := mul_step_le hi
  have hc := mul_step_le hj
  have := pixel_index_lt (i * step + a) (j * step + b) image.x image.y (by omega) (by omega)
  refine ⟨Int.ofNat_nonneg _, Int.ofNat_lt.2 ?_⟩
  rw [Nat.add_assoc]
  exact this

/-! ## Runs on the same image: what depends on the memory behind the pixel array -/

/-- On one and the same memory (the pixel array and whatever lies behind it), for an image
that needs no rescale and 16 tiles of 8 x 8, the grid and the image left by a run do not
depend on the number of workers or on their order. -/
theorem f_all_indep_of_workers (sample_bicubic : Bicubic) (P : Nat) (hP : 1 ≤ P)
    (ws0 ws1 ws2 ws3 ws4 : List Nat)
    (h0 : all_workers P ws0) (h1 : all_workers P ws1) (h2 : all_workers P ws2)
    (h3 : all_workers P ws3) (h4 : all_workers P ws4)
    (s : Shared) (hx : s.image.x ≤ 2048) (hy : s.image.y ≤ 2048)
    (hatlas : ∀ k, k < CONTOUR_CONFIG_COUNT →
      (s.contour_map k).x = 8 ∧ (s.contour_map k).y = 8) :
    (f_all sample_bicubic P ws0 ws1 ws2 ws3 ws4 s).grid
      = (f_all sample_bicubic 1 [0] [0] [0] [0] [0] s).grid ∧
    (f_all sample_bicubic P ws0 ws1 ws2 ws3 ws4 s).scaled_image
      = (f_all sample_bicubic 1 [0] [0] [0] [0] [0] s).scaled_image := by
  rw [f_all_small sample_bicubic P ws0 ws1 ws2 ws3 ws4 (all_workers_ne_nil hP h0) s hx hy,
    f_all_small sample_bicubic 1 [0] [0] [0] [0] [0] (by simp) s hx hy]
  have hg := sample_grid_all_indep P 1 hP (le_refl 1) ws1 ws2 ws3 [0] [0] [0] h1 h2 h3
    all_workers_one all_workers_one all_workers_one s.grid s.image STEP STEP SIGMA
  refine ⟨hg, ?_⟩
  simp only [hg]
  apply march_all_indep P 1 hP (le_refl 1) ws4 [0] h4 all_workers_one
  apply tiles_fit_of_binary _ _ _ _ STEP _ hatlas
  intro i j hi hj
  rw [(sample_grid_all_spec 1 (le_refl 1) [0] [0] [0] all_workers_one all_workers_one
    all_workers_one s.grid s.image STEP STEP SIGMA i j).1 ⟨hi, hj⟩]
  exact sampled_binary _ _ _ _ _ _

/-- The index read by the right-column loop lies inside the pixel array when
`x <= step_x * y`. -/
theorem right_index_in_image (image : ppm_image) (step_x i : Nat)
    (hi : i < image.x / step_x) (hle : image.x ≤ step_x * image.y) :
    in_image image (((i * step_x * image.y + image.x : Nat) : Int) - 1) := by
  have hr := mul_step_le hi
  have h1 : (i * step_x + step_x) * image.y ≤ image.x * image.y :=
    Nat.mul_le_mul_right _ hr
  have e1 : (i * step_x + step_x) * image.y = i * step_x * image.y + step_x * image.y := by
    ring
  have hs : 0 < step_x := by
    rcases Nat.eq_zero_or_pos step_x with h0 | h0
    · rw [h0, Nat.div_zero] at hi
      omega
    · exact h0
  unfold in_image
  constructor
  · omega
  · have : i * step_x * image.y + image.x ≤ image.x * image.y := by omega
    omega

/-- The index read by the bottom-row loop lies inside the pixel array. -/
theorem bottom_index_in_image (image : ppm_image) (step_y j : Nat) (hx : 1 ≤ image.x)
    (hj : j < image.y / step_y) :
    in_image image (((image.x : Int) - 1) * (image.y : Int) + ((j * step_y : Nat) : Int)) := by
  have hc := mul_step_le hj
  have hsy : 0 < step_y := by
    rcases Nat.eq_zero_or_pos step_y with h0 | h0
    · rw [h0, Nat.div_zero] at hj
      omega
    · exact h0
  have hlt := pixel_index_lt (image.x - 1) (j * step_y) image.x image.y (by omega) (by omega)
  have e : ((image.x : Int) - 1) * (image.y : Int) + ((j * step_y : Nat) : Int)
      = (((image.x - 1) * image.y + j * step_y : Nat) : Int) := by
    push_cast [Nat.cast_sub hx]
    ring
  rw [e]
  exact ⟨Int.ofNat_nonneg _, Int.ofNat_lt.2 hlt⟩

/-- When all sampling reads lie inside the pixel array, the sampled grid is the same for two
memories that hold the same image. -/
theorem sampled_congr (image image' : ppm_image) (step_x step_y : Nat) (sigma : uchar)
    (hx : image'.x = image.x) (hy : image'.y = image.y)
    (hd : ∀ k, in_image image k → image'.data k = image.data k)
    (h1 : 1 ≤ image.x) (hle : image.x ≤ step_x * image.y) (i j : Nat) :
    sampled image' step_x step_y sigma i j = sampled image step_x step_y sigma i j := by
  simp only [sampled, hx, hy]
  split_ifs with c1 c2 c3
  · rw [hd _ ⟨Int.ofNat_nonneg _, Int.ofNat_lt.2 (regular_index_lt _ _ _ _ i j c1 c2)⟩]
  · rw [hd _ (right_index_in_image image step_x i c1 hle)]
  · rw [hd _ (bottom_index_in_image image step_y j h1 c3)]
  · rfl

/-- Determinism where the reads stay inside the pixel array: for two runs on memories that
hold the same image (`1 <= x <= 8 * y`, no rescale) and the same atlas of 16 tiles of
8 x 8, with any numbers of workers in any orders, the grids agree on the cells
`(i, j)`, `i <= p`, `j <= q`, and the output images have the same dimensions and the same
pixels. -/
theorem f_all_deterministic_in_bounds (B B' : Bicubic) (P Q : Nat) (hP : 1 ≤ P) (hQ : 1 ≤ Q)
    (ws0 ws1 ws2 ws3 ws4 vs0 vs1 vs2 vs3 vs4 : List Nat)
    (h0 : all_workers P ws0) (h1 : all_workers P ws1) (h2 : all_workers P ws2)
    (h3 : all_workers P ws3) (h4 : all_workers P ws4)
    (g0 : all_workers Q vs0) (g1 : all_workers Q vs1) (g2 : all_workers Q vs2)
    (g3 : all_workers Q vs3) (g4 : all_workers Q vs4)
    (s s' : Shared) (hx : s.image.x ≤ 2048) (hy : s.image.y ≤ 2048)
    (hx1 : 1 ≤ s.image.x) (hle : s.image.x ≤ STEP * s.image.y)
    (hdx : s'.image.x = s.image.x) (hdy : s'.image.y = s.image.y)
    (hd : ∀ k, in_image s.image k → s'.image.data k = s.image.data k)
    (hcm : s'.contour_map = s.contour_map)
    (hatlas : ∀ k, k < CONTOUR_CONFIG_COUNT →
      (s.contour_map k).x = 8 ∧ (s.contour_map k).y = 8) :
    (∀ i j, i ≤ s.image.x / STEP → j ≤ s.image.y / STEP →
      (f_all B' Q vs0 vs1 vs2 vs3 vs4 s').grid i j
        = (f_all B P ws0 ws1 ws2 ws3 ws4 s).grid i j) ∧
    (f_all B' Q vs0 vs1 vs2 vs3 vs4 s').scaled_image.x
      = (f_all B P ws0 ws1 ws2 ws3 ws4 s).scaled_image.x ∧
    (f_all B' Q vs0 vs1 vs2 vs3 vs4 s').scaled_image.y
      = (f_all B P ws0 ws1 ws2 ws3 ws4 s).scaled_image.y ∧
    (∀ k, in_image s.image k →
      (f_all B' Q vs0 vs1 vs2 vs3 vs4 s').scaled_image.data k
        = (f_all B P ws0 ws1 ws2 ws3 ws4 s).scaled_image.data k) := by
  rw [f_all_small B P ws0 ws1 ws2 ws3 ws4 (all_workers_ne_nil hP h0) s hx hy,
    f_all_small B' Q vs0 vs1 vs2 vs3 vs4 (all_workers_ne_nil hQ g0) s'
      (by rw [hdx]; exact hx) (by rw [hdy]; exact hy)]
  rw [hcm]
  have hcell : ∀ i j, i ≤ s.image.x / STEP → j ≤ s.image.y / STEP →
      sample_grid_all vs1 vs2 vs3 s'.grid s'.image STEP STEP SIGMA Q i j
        = sample_grid_all ws1 ws2 ws3 s.grid s.image STEP STEP SIGMA P i j := by
    intro i j hi hj
    rw [(sample_grid_all_spec P hP ws1 ws2 ws3 h1 h2 h3 s.grid s.image STEP STEP SIGMA
        i j).1 ⟨hi, hj⟩,
      (sample_grid_all_spec Q hQ vs1 vs2 vs3 g1 g2 g3 s'.grid s'.image STEP STEP SIGMA
        i j).1 ⟨by rw [hdx]; exact hi, by rw [hdy]; exact hj⟩]
    exact sampled_congr s.image s'.image STEP STEP SIGMA hdx hdy hd hx1 hle i j
  have hbin : ∀ i j, i ≤ s.image.x / STEP → j ≤ s.image.y / STEP →
      sample_grid_all ws1 ws2 ws3 s.grid s.image STEP STEP SIGMA P i j = 0 ∨
      sample_grid_all ws1 ws2 ws3 s.grid s.image STEP STEP SIGMA P i j = 1 := by
    intro i j hi hj
    rw [(sample_grid_all_spec P hP ws1 ws2 ws3 h1 h2 h3 s.grid s.image STEP STEP SIGMA
      i j).1 ⟨hi, hj⟩]
    exact sampled_binary _ _ _ _ _ _
  have hbin' : ∀ i j, i ≤ s.image.x / STEP → j ≤ s.image.y / STEP →
      sample_grid_all vs1 vs2 vs3 s'.grid s'.image STEP STEP SIGMA Q i j = 0 ∨
      sample_grid_all vs1 vs2 vs3 s'.grid s'.image STEP STEP SIGMA Q i j = 1 := by
    intro i j hi hj
    rw [hcell i j hi hj]
    exact hbin i j hi hj
  have hfit := tiles_fit_of_binary _ _ _ s.contour_map STEP hbin hatlas
  have hfit' := tiles_fit_of_binary _ _ _ s.contour_map STEP hbin' hatlas
  have hsp := march_all_spec P hP ws4 h4 s.image _ s.contour_map STEP STEP hfit
  have hsp' := march_all_spec Q hQ vs4 g4 s'.image
    (sample_grid_all vs1 vs2 vs3 s'.grid s'.image STEP STEP SIGMA Q) s'.contour_map
    STEP STEP (by rw [hdx, hdy, hcm]; exact hfit')
  rw [hdx, hdy, hcm] at hsp'
  refine ⟨hcell, ?_, ?_, ?_⟩
  · exact hsp'.1.trans hsp.1.symm
  · exact hsp'.2.1.trans hsp.2.1.symm
  · intro k hk
    show (march_all vs4 s'.image _ s.contour_map STEP STEP Q).data k
      = (march_all ws4 s.image _ s.contour_map STEP STEP P).data k
    by_cases hb : in_blocks s.image.y (s.image.x / STEP) (s.image.y / STEP) STEP STEP k
    · rw [(hsp'.2.2 k).1 hb, (hsp.2.2 k).1 hb]
      obtain ⟨i, j, a, b, hi, hj, ha, hb', rfl⟩ := hb
      rw [stamped_block _ _ _ STEP STEP i j a b ha hb' hj,
        stamped_block _ _ _ STEP STEP i j a b ha hb' hj]
      have hcode : config_code (sample_grid_all vs1 vs2 vs3 s'.grid s'.image STEP STEP SIGMA Q)
          i j = config_code (sample_grid_all ws1 ws2 ws3 s.grid s.image STEP STEP SIGMA P)
          i j := by
        unfold config_code
        rw [hcell i j (by omega) (by omega), hcell i (j + 1) (by omega) (by omega),
          hcell (i + 1) (j + 1) (by omega) (by omega), hcell (i + 1) j (by omega) (by omega)]
      rw [hcode]
    · rw [(hsp'.2.2 k).2 hb, (hsp.2.2 k).2 hb]
      exact hd k hk

/-- C1 (partition law): for every size `N` and worker count `P ≥ 1`, an index belongs to the
range `[t*N/P, min((t+1)*N/P, N))` of some worker `t < P` exactly when it lies in `[0, N)`,
and it never belongs to the ranges of two different workers: the ranges are pairwise
disjoint and their union is `[0, N)`. -/
theorem partition_law (N P : Nat) (hP : 1 ≤ P) (i : Nat) :
    ((∃ t, t < P ∧ in_part N P t i) ↔ i < N) ∧
    (∀ t t', t < P → t' < P → in_part N P t i → in_part N P t' i → t = t') ∧
    (i < N → ∃! t, t < P ∧ in_part N P t i) := by
  refine ⟨⟨?_, ?_⟩, ?_, ?_⟩
  · rintro ⟨t, _, h⟩
    exact in_part_lt N P t i h
  · exact in_part_exists N P i hP
  · intro t t' _ _ h h'
    exact in_part_unique N P t t' i h h'
  · intro hi
    obtain ⟨t, ht, h⟩ := in_part_exists N P i hP hi
    exact ⟨t, ⟨ht, h⟩, fun t' h' => in_part_unique N P t' t i h'.2 h⟩

/-- Witness of C1: 7 indices shared by 16 workers (more workers than indices), index 3. -/
theorem partition_law_witness :
    ((∃ t, t < 16 ∧ in_part 7 16 t 3) ↔ 3 < 7) ∧
    (∀ t t', t < 16 → t' < 16 → in_part 7 16 t 3 → in_part 7 16 t' 3 → t = t') ∧
    (3 < 7 → ∃! t, t < 16 ∧ in_part 7 16 t 3) :=
  partition_law 7 16 (by decide) 3


/-- C3 (right boundary column), evaluation of the code where it departs from the claim: on
the 8 x 16 image `wide_image` (step 8, sigma 200, one worker) the cell `grid[0][q]`, `q = 2`,
computed by `sample_grid` is 0, the value for the white pixel at index `x - 1 = 7` of row 0,
whereas the pixel in the last column of row 0 (column `y - 1 = 15`) is black and the cell
value for it is 1. -/
theorem right_column_reads_column_x_minus_one :
    wide_image.x / STEP = 1 ∧ wide_image.y / STEP = 2 ∧
    sample_grid_all [0] [0] [0] (fun _ _ => 0) wide_image STEP STEP SIGMA 1 0 2 = 0 ∧
    sample_grid_all [0] [0] [0] (fun _ _ => 0) wide_image STEP STEP SIGMA 1 0 2
      = cell_of (wide_image.data 7) SIGMA ∧
    cell_of (pixel_at wide_image 0 (wide_image.y - 1)) SIGMA = 1 := by
  have h := (sample_grid_all_spec 1 (le_refl 1) [0] [0] [0] (List.Perm.refl _)
    (List.Perm.refl _) (List.Perm.refl _) (fun _ _ => 0) wide_image STEP STEP SIGMA 0 2).1
    (by decide)
  refine ⟨by decide, by decide, ?_, ?_, by decide⟩
  · rw [h]; decide
  · rw [h]; decide

/-- C4 (regular grid sampling): after all `P` workers have run the three sub-phases of
`sample_grid`, every interior cell `grid[i][j]`, `i < p`, `j < q`, is 1 when the luminance
`(R+G+B)/3` of the pixel at `(i*step, j*step)` is `<= sigma` and 0 otherwise. -/
theorem regular_grid_sampling (P : Nat) (hP : 1 ≤ P) (ws1 ws2 ws3 : List Nat)
    (h1 : all_workers P ws1) (h2 : all_workers P ws2) (h3 : all_workers P ws3)
    (grid : Grid) (image : ppm_image) (step : Nat) (sigma : uchar) (i j : Nat)
    (hi : i < image.x / step) (hj : j < image.y / step) :
    sample_grid_all ws1 ws2 ws3 grid image step step sigma P i j
      = (if luminance (pixel_at image ((i * step : Nat) : Int) ((j * step : Nat) : Int))
            ≤ sigma.val then 1 else 0) := by
  rw [(sample_grid_all_spec P hP ws1 ws2 ws3 h1 h2 h3 grid image step step sigma i j).1
    ⟨le_of_lt hi, le_of_lt hj⟩]
  have hidx : ((i * step * image.y + j * step : Nat) : Int)
      = ((i * step : Nat) : Int) * (image.y : Int) + ((j * step : Nat) : Int) := by
    push_cast; ring
  simp only [sampled, hi, hj, if_true, sample_cell_eq, cell_of, pixel_at, hidx]

/-- Witness of C4: a 16 x 16 image, two workers finishing in different orders, cell (1,1). -/
theorem regular_grid_sampling_witness :
    sample_grid_all [1, 0] [0, 1] [1, 0] (fun _ _ => 7)
        ⟨16, 16, fun k => if k = 136 then ⟨10, 20, 30⟩ else ⟨255, 255, 255⟩⟩ 8 8 200 2 1 1
      = (if luminance (pixel_at
            ⟨16, 16, fun k => if k = 136 then ⟨10, 20, 30⟩ else ⟨255, 255, 255⟩⟩
            ((1 * 8 : Nat) : Int) ((1 * 8 : Nat) : Int)) ≤ (200 : uchar).val then 1 else 0) :=
  regular_grid_sampling 2 (by decide) [1, 0] [0, 1] [1, 0] (by decide) (by decide) (by decide)
    (fun _ _ => 7) ⟨16, 16, fun k => if k = 136 then ⟨10, 20, 30⟩ else ⟨255, 255, 255⟩⟩
    8 200 1 1 (by decide) (by decide)

/-- C5 (bottom boundary row): after all workers have run the three sub-phases of
`sample_grid`, every cell `grid[p][j]`, `j < q`, is 1 when the luminance of the pixel in the
last row of the image (row `x - 1`) and column `j*step` is `<= sigma`, and 0 otherwise. -/
theorem bottom_boundary_row (P : Nat) (hP : 1 ≤ P) (ws1 ws2 ws3 : List Nat)
    (h1 : all_workers P ws1) (h2 : all_workers P ws2) (h3 : all_workers P ws3)
    (grid : Grid) (image : ppm_image) (step : Nat) (sigma : uchar) (j : Nat)
    (hj : j < image.y / step) :
    sample_grid_all ws1 ws2 ws3 grid image step step sigma P (image.x / step) j
      = (if luminance (pixel_at image ((image.x : Int) - 1) ((j * step : Nat) : Int))
            ≤ sigma.val then 1 else 0) := by
  rw [(sample_grid_all_spec P hP ws1 ws2 ws3 h1 h2 h3 grid image step step sigma
    (image.x / step) j).1 ⟨le_refl _, le_of_lt hj⟩]
  simp only [sampled, lt_irrefl, hj, if_true, if_false, sample_cell_eq, cell_of, pixel_at]

/-- Witness of C5: a 9 x 17 image (sizes not multiples of the step), three workers, cell
`grid[1][1]` sampled from the last row (row 8), column 8. -/
theorem bottom_boundary_row_witness :
    sample_grid_all [2, 1, 0] [0, 1, 2] [1, 0, 2] (fun _ _ => 7)
        ⟨9, 17, fun k => if k = 144 then ⟨10, 20, 30⟩ else ⟨255, 255, 255⟩⟩ 8 8 200 3 (9 / 8) 1
      = (if luminance (pixel_at
            ⟨9, 17, fun k => if k = 144 then ⟨10, 20, 30⟩ else ⟨255, 255, 255⟩⟩
            (((9 : Nat) : Int) - 1) ((1 * 8 : Nat) : Int)) ≤ (200 : uchar).val then 1 else 0) :=
  bottom_boundary_row 3 (by decide) [2, 1, 0] [0, 1, 2] [1, 0, 2] (by decide) (by decide)
    (by decide) (fun _ _ => 7)
    ⟨9, 17, fun k => if k = 144 then ⟨10, 20, 30⟩ else ⟨255, 255, 255⟩⟩ 8 200 1 (by decide)

/-- C6 (marching postcondition): for an image, a grid whose cells `(i, j)`, `i <= p`,
`j <= q`, are 0 or 1 and an atlas of 16 tiles of size `step x step`, after `march` has been
run by all `P` workers the image pixel at `(i*step + a, j*step + b)`, for `i < p`, `j < q`
and `a, b < step`, is pixel `(a, b)` of the tile `contour_map[k]` with
`k = 8*grid[i][j] + 4*grid[i][j+1] + 2*grid[i+1][j+1] + grid[i+1][j]`. -/
theorem marching_postcondition (P : Nat) (hP : 1 ≤ P) (ws : List Nat) (hws : all_workers P ws)
    (image : ppm_image) (grid : Grid) (contour_map : ContourMap) (step : Nat)
    (hbin : ∀ i j, i ≤ image.x / step → j ≤ image.y / step → grid i j = 0 ∨ grid i j = 1)
    (hatlas : ∀ k, k < CONTOUR_CONFIG_COUNT →
      (contour_map k).x = step ∧ (contour_map k).y = step)
    (i j a b : Nat) (hi : i < image.x / step) (hj : j < image.y / step)
    (ha : a < step) (hb : b < step) :
    pixel_at (march_all ws image grid contour_map step step P)
        ((i * step + a : Nat) : Int) ((j * step + b : Nat) : Int)
      = pixel_at (contour_map (8 * (grid i j).val + 4 * (grid i (j + 1)).val
          + 2 * (grid (i + 1) (j + 1)).val + (grid (i + 1) j).val)) (a : Int) (b : Int) := by
  have hfit := tiles_fit_of_binary _ _ grid contour_map step hbin hatlas
  obtain ⟨_, hy', hd⟩ := march_all_spec P hP ws hws image grid contour_map step step hfit
  have hk := config_code_binary grid i j (hbin i j (by omega) (by omega))
    (hbin i (j + 1) (by omega) (by omega)) (hbin (i + 1) (j + 1) (by omega) (by omega))
    (hbin (i + 1) j (by omega) (by omega))
  have hty := (hatlas (config_code grid i j) (by unfold CONTOUR_CONFIG_COUNT; omega)).2
  have hidx : ((i * step + a : Nat) : Int) * (image.y : Int) + ((j * step + b : Nat) : Int)
      = (((i * step + a) * image.y + j * step + b : Nat) : Int) := by
    push_cast; ring
  have hidx' : (a : Int) * (step : Int) + (b : Int) = ((step * a + b : Nat) : Int) := by
    push_cast; ring
  unfold pixel_at
  rw [hy', hidx, (hd _).1 ⟨i, j, a, b, hi, hj, ha, hb, rfl⟩,
    stamped_block image.y grid contour_map step step i j a b ha hb hj, ← hk.2, hty, hidx']

/-- Witness of C6: a 16 x 17 image, the grid whose cells are all 1 (code 15), two workers,
pixel (3, 5) of the block (1, 0). -/
theorem marching_postcondition_witness :
    pixel_at (march_all [1, 0] ⟨16, 17, fun _ => white⟩ (fun _ _ => 1) sample_tile 8 8 2)
        ((1 * 8 + 3 : Nat) : Int) ((0 * 8 + 5 : Nat) : Int)
      = pixel_at (sample_tile (8 * ((fun _ _ => 1 : Grid) 1 0).val
          + 4 * ((fun _ _ => 1 : Grid) 1 (0 + 1)).val
          + 2 * ((fun _ _ => 1 : Grid) (1 + 1) (0 + 1)).val
          + ((fun _ _ => 1 : Grid) (1 + 1) 0).val)) ((3 : Nat) : Int) ((5 : Nat) : Int) :=
  marching_postcondition 2 (by decide) [1, 0] (by decide) ⟨16, 17, fun _ => white⟩
    (fun _ _ => 1) sample_tile 8 (fun _ _ _ _ => Or.inr rfl) (fun _ _ => ⟨rfl, rfl⟩)
    1 0 3 5 (by decide) (by decide) (by decide) (by decide)

/-- C7 (grid completely assigned and binary): for every image and `P >= 1`, after all `P`
workers have run the three sampling sub-phases, every cell `grid[i][j]` with `i <= p` and
`j <= q` holds 0 or 1 and does not depend on what the grid held before (it has been
written), and the corner cell `grid[p][q]` is 0. -/
theorem grid_assigned_binary (P : Nat) (hP : 1 ≤ P) (ws1 ws2 ws3 : List Nat)
    (h1 : all_workers P ws1) (h2 : all_workers P ws2) (h3 : all_workers P ws3)
    (image : ppm_image) (step_x step_y : Nat) (sigma : uchar) (grid : Grid) :
    (∀ i j, i ≤ image.x / step_x → j ≤ image.y / step_y →
      (sample_grid_all ws1 ws2 ws3 grid image step_x step_y sigma P i j = 0 ∨
        sample_grid_all ws1 ws2 ws3 grid image step_x step_y sigma P i j = 1) ∧
      ∀ grid' : Grid, sample_grid_all ws1 ws2 ws3 grid' image step_x step_y sigma P i j
        = sample_grid_all ws1 ws2 ws3 grid image step_x step_y sigma P i j) ∧
    sample_grid_all ws1 ws2 ws3 grid image step_x step_y sigma P
      (image.x / step_x) (image.y / step_y) = 0 := by
  constructor
  · intro i j hi hj
    have hs := fun g => (sample_grid_all_spec P hP ws1 ws2 ws3 h1 h2 h3 g image
      step_x step_y sigma i j).1 ⟨hi, hj⟩
    constructor
    · rw [hs grid]
      exact sampled_binary _ _ _ _ _ _
    · intro grid'
      rw [hs grid, hs grid']
  · rw [(sample_grid_all_spec P hP ws1 ws2 ws3 h1 h2 h3 grid image step_x step_y sigma
      _ _).1 ⟨le_refl _, le_refl _⟩]
    simp [sampled]

/-- Witness of C7: a 9 x 17 image, two workers, an initial grid filled with the value 7. -/
theorem grid_assigned_binary_witness :
    (∀ i j, i ≤ 9 / 8 → j ≤ 17 / 8 →
      (sample_grid_all [1, 0] [0, 1] [1, 0] (fun _ _ => 7)
          ⟨9, 17, fun _ => ⟨255, 255, 255⟩⟩ 8 8 200 2 i j = 0 ∨
        sample_grid_all [1, 0] [0, 1] [1, 0] (fun _ _ => 7)
          ⟨9, 17, fun _ => ⟨255, 255, 255⟩⟩ 8 8 200 2 i j = 1) ∧
      ∀ grid' : Grid, sample_grid_all [1, 0] [0, 1] [1, 0] grid'
          ⟨9, 17, fun _ => ⟨255, 255, 255⟩⟩ 8 8 200 2 i j
        = sample_grid_all [1, 0] [0, 1] [1, 0] (fun _ _ => 7)
          ⟨9, 17, fun _ => ⟨255, 255, 255⟩⟩ 8 8 200 2 i j) ∧
    sample_grid_all [1, 0] [0, 1] [1, 0] (fun _ _ => 7)
      ⟨9, 17, fun _ => ⟨255, 255, 255⟩⟩ 8 8 200 2 (9 / 8) (17 / 8) = 0 :=
  grid_assigned_binary 2 (by decide) [1, 0] [0, 1] [1, 0] (by decide) (by decide) (by decide)
    ⟨9, 17, fun _ => ⟨255, 255, 255⟩⟩ 8 8 200 (fun _ _ => 7)

/-- C8 (configuration code range): when the four corner cells of cell `(i, j)` are 0 or 1,
the code `k` computed by `march` (as an `unsigned char`) is the sum
`8*grid[i][j] + 4*grid[i][j+1] + 2*grid[i+1][j+1] + grid[i+1][j]` and satisfies `k <= 15`,
so `contour_map[k]` is inside the atlas of `CONTOUR_CONFIG_COUNT = 16` entries. -/
theorem config_code_range (grid : Grid) (i j : Nat)
    (ha : grid i j = 0 ∨ grid i j = 1) (hb : grid i (j + 1) = 0 ∨ grid i (j + 1) = 1)
    (hc : grid (i + 1) (j + 1) = 0 ∨ grid (i + 1) (j + 1) = 1)
    (hd : grid (i + 1) j = 0 ∨ grid (i + 1) j = 1) :
    config_code grid i j ≤ 15 ∧ config_code grid i j < CONTOUR_CONFIG_COUNT ∧
    config_code grid i j = 8 * (grid i j).val + 4 * (grid i (j + 1)).val
      + 2 * (grid (i + 1) (j + 1)).val + (grid (i + 1) j).val := by
  unfold config_code CONTOUR_CONFIG_COUNT
  rcases ha with ha | ha <;> rcases hb with hb | hb <;> rcases hc with hc | hc <;>
    rcases hd with hd | hd <;> simp [ha, hb, hc, hd]

/-- Witness of C8: the grid whose cells are all 1, code 15. -/
theorem config_code_range_witness :
    config_code (fun _ _ => 1) 0 0 ≤ 15 ∧ config_code (fun _ _ => 1) 0 0 < CONTOUR_CONFIG_COUNT ∧
    config_code (fun _ _ => 1) 0 0 = 8 * ((fun _ _ => 1 : Grid) 0 0).val
      + 4 * ((fun _ _ => 1 : Grid) 0 (0 + 1)).val
      + 2 * ((fun _ _ => 1 : Grid) (0 + 1) (0 + 1)).val + ((fun _ _ => 1 : Grid) (0 + 1) 0).val :=
  config_code_range (fun _ _ => 1) 0 0 (Or.inr rfl) (Or.inr rfl) (Or.inr rfl) (Or.inr rfl)

/-- C9 (rescaler identity): for a source image with `x <= 2048` and `y <= 2048`, for every
worker count and worker id, `rescale_image` returns the source image itself and leaves the
target buffer as it was, whatever the interpolation function is (it is not used). -/
theorem rescale_identity (sample_bicubic : Bicubic) (new_image image : ppm_image)
    (thread_count thread_id : Nat) (hx : image.x ≤ 2048) (hy : image.y ≤ 2048) :
    (rescale_image sample_bicubic new_image image thread_count thread_id).1 = image ∧
    (rescale_image sample_bicubic new_image image thread_count thread_id).2 = new_image := by
  have h : image.x ≤ RESCALE_X ∧ image.y ≤ RESCALE_Y := ⟨hx, hy⟩
  simp [rescale_image, h]

/-- Witness of C9: an 8 x 16 source and a 2048 x 2048 target, worker 1 of 4. -/
theorem rescale_identity_witness :
    (rescale_image (fun _ _ _ _ _ => ⟨1, 2, 3⟩) ⟨2048, 2048, fun _ => ⟨0, 0, 0⟩⟩
        wide_image 4 1).1 = wide_image ∧
    (rescale_image (fun _ _ _ _ _ => ⟨1, 2, 3⟩) ⟨2048, 2048, fun _ => ⟨0, 0, 0⟩⟩
        wide_image 4 1).2 = ⟨2048, 2048, fun _ => ⟨0, 0, 0⟩⟩ :=
  rescale_identity (fun _ _ _ _ _ => ⟨1, 2, 3⟩) ⟨2048, 2048, fun _ => ⟨0, 0, 0⟩⟩
    wide_image 4 1 (by decide) (by decide)

/-- C10 (end-to-end scenario): for a 16 x 16 image whose pixels are all white, step 8 and
sigma 200, every `P >= 1` and every atlas of 8 x 8 tiles, a run (no rescale, sampling,
marching) leaves a 3 x 3 occupancy grid whose cells are all 0, the corner included, a
configuration code 0 for each of the four cells, and an output image of 16 x 16 pixels in
which, for each of the offsets (0,0), (0,8), (8,0) and (8,8) (the offsets `(i*8, j*8)`,
`i, j < 2`) and all `a, b < 8`, the pixel at offset plus `(a, b)` is pixel `(a, b)` of
tile 0; the memory outside the 256 pixels is as in the input.  This is the input with tile
0 stamped by `update_image` at the four offsets. -/
theorem white_image_end_to_end (sample_bicubic : Bicubic) (P : Nat) (hP : 1 ≤ P)
    (ws0 ws1 ws2 ws3 ws4 : List Nat)
    (h0 : all_workers P ws0) (h1 : all_workers P ws1) (h2 : all_workers P ws2)
    (h3 : all_workers P ws3) (h4 : all_workers P ws4)
    (s : Shared) (hx : s.image.x = 16) (hy : s.image.y = 16)
    (hwhite : ∀ k : Int, 0 ≤ k → k < 256 → s.image.data k = white)
    (hatlas : ∀ k, k < CONTOUR_CONFIG_COUNT →
      (s.contour_map k).x = 8 ∧ (s.contour_map k).y = 8) :
    (s.image.x / STEP + 1 = 3 ∧ s.image.y / STEP + 1 = 3) ∧
    (∀ i j, i < 3 → j < 3 → (f_all sample_bicubic P ws0 ws1 ws2 ws3 ws4 s).grid i j = 0) ∧
    (∀ i j, i < 2 → j < 2 →
      config_code (f_all sample_bicubic P ws0 ws1 ws2 ws3 ws4 s).grid i j = 0) ∧
    ((f_all sample_bicubic P ws0 ws1 ws2 ws3 ws4 s).scaled_image.x = 16 ∧
      (f_all sample_bicubic P ws0 ws1 ws2 ws3 ws4 s).scaled_image.y = 16) ∧
    (∀ i j a b : Nat, i < 2 → j < 2 → a < 8 → b < 8 →
      pixel_at (f_all sample_bicubic P ws0 ws1 ws2 ws3 ws4 s).scaled_image
          ((i * 8 + a : Nat) : Int) ((j * 8 + b : Nat) : Int)
        = pixel_at (s.contour_map 0) (a : Int) (b : Int)) ∧
    (∀ k : Int, (k < 0 ∨ 256 ≤ k) →
      (f_all sample_bicubic P ws0 ws1 ws2 ws3 ws4 s).scaled_image.data k
        = s.image.data k) ∧
    (f_all sample_bicubic P ws0 ws1 ws2 ws3 ws4 s).scaled_image
      = update_image (update_image (update_image (update_image s.image
          (s.contour_map 0) 0 0) (s.contour_map 0) 0 8) (s.contour_map 0) 8 0)
          (s.contour_map 0) 8 8 := by
  rw [f_all_small sample_bicubic P ws0 ws1 ws2 ws3 ws4 (all_workers_ne_nil hP h0) s
    (by omega) (by omega)]
  have hp : s.image.x / STEP = 2 := by rw [hx]; rfl
  have hq : s.image.y / STEP = 2 := by rw [hy]; rfl
  have hs : ∀ i j, i < 3 → j < 3 → sampled s.image STEP STEP SIGMA i j = 0 := by
    intro i j hi hj
    have hc : sample_cell white SIGMA = 0 := by decide
    simp only [sampled, hx, hy, STEP]
    split_ifs
    · rw [hwhite _ (by omega) (by omega)]; exact hc
    · rw [hwhite _ (by omega) (by omega)]; exact hc
    · rw [hwhite _ (by omega) (by omega)]; exact hc
    · rfl
  have hg : ∀ i j, i < 3 → j < 3 →
      sample_grid_all ws1 ws2 ws3 s.grid s.image STEP STEP SIGMA P i j = 0 := by
    intro i j hi hj
    rw [(sample_grid_all_spec P hP ws1 ws2 ws3 h1 h2 h3 s.grid s.image STEP STEP SIGMA
      i j).1 ⟨by omega, by omega⟩]
    exact hs i j hi hj
  have hk : ∀ i j, i < 2 → j < 2 →
      config_code (sample_grid_all ws1 ws2 ws3 s.grid s.image STEP STEP SIGMA P) i j = 0 := by
    intro i j hi hj
    simp [config_code, hg i j (by omega) (by omega), hg i (j + 1) (by omega) (by omega),
      hg (i + 1) (j + 1) (by omega) (by omega), hg (i + 1) j (by omega) (by omega)]
  have hbin : ∀ i j, i ≤ s.image.x / STEP → j ≤ s.image.y / STEP →
      sample_grid_all ws1 ws2 ws3 s.grid s.image STEP STEP SIGMA P i j = 0 ∨
      sample_grid_all ws1 ws2 ws3 s.grid s.image STEP STEP SIGMA P i j = 1 := by
    intro i j hi hj
    exact Or.inl (hg i j (by omega) (by omega))
  have hfit : tiles_fit (s.image.x / STEP) (s.image.y / STEP)
      (sample_grid_all ws1 ws2 ws3 s.grid s.image STEP STEP SIGMA P) s.contour_map
      STEP STEP := tiles_fit_of_binary _ _ _ _ STEP hbin hatlas
  have hspec := march_all_spec P hP ws4 h4 s.image
    (sample_grid_all ws1 ws2 ws3 s.grid s.image STEP STEP SIGMA P) s.contour_map
    STEP STEP hfit
  refine ⟨⟨by omega, by omega⟩, hg, hk, ⟨?_, ?_⟩, ?_, ?_, ?_⟩
  · exact hspec.1.trans hx
  · exact hspec.2.1.trans hy
  · intro i j a b hi hj ha hb
    have hpix := march_all_pixel P hP ws4 h4 s.image
      (sample_grid_all ws1 ws2 ws3 s.grid s.image STEP STEP SIGMA P) s.contour_map STEP
      hbin hatlas i j a b (by omega) (by omega) ha hb
    rw [hk i j hi hj] at hpix
    exact hpix
  · intro k hout
    apply march_all_outside P hP ws4 h4 s.image _ s.contour_map STEP hfit k
    unfold in_image
    rw [hx, hy]
    omega
  · show march_all ws4 s.image _ s.contour_map STEP STEP P = _
    rw [march_all_indep P 1 hP (le_refl 1) ws4 [0] h4 all_workers_one s.image _ s.contour_map
      STEP STEP hfit]
    simp [march_all, run_phase, march, hp, hq, part_start, part_end, MIN, for_loop,
      List.range']
    rw [hk 0 0 (by omega) (by omega), hk 0 1 (by omega) (by omega),
      hk 1 0 (by omega) (by omega), hk 1 1 (by omega) (by omega)]
    rfl

/-- Witness of C10: the buffers `white_shared`, two workers, a different order per phase;
tile 0 is `sample_tile 0`, whose pixels are not white. -/
theorem white_image_end_to_end_witness :
    (white_shared.image.x / STEP + 1 = 3 ∧ white_shared.image.y / STEP + 1 = 3) ∧
    (∀ i j, i < 3 → j < 3 →
      (f_all (fun _ _ _ _ _ => white) 2 [0, 1] [1, 0] [0, 1] [1, 0] [1, 0]
        white_shared).grid i j = 0) ∧
    (∀ i j, i < 2 → j < 2 →
      config_code (f_all (fun _ _ _ _ _ => white) 2 [0, 1] [1, 0] [0, 1] [1, 0] [1, 0]
        white_shared).grid i j = 0) ∧
    ((f_all (fun _ _ _ _ _ => white) 2 [0, 1] [1, 0] [0, 1] [1, 0] [1, 0]
        white_shared).scaled_image.x = 16 ∧
      (f_all (fun _ _ _ _ _ => white) 2 [0, 1] [1, 0] [0, 1] [1, 0] [1, 0]
        white_shared).scaled_image.y = 16) ∧
    (∀ i j a b : Nat, i < 2 → j < 2 → a < 8 → b < 8 →
      pixel_at (f_all (fun _ _ _ _ _ => white) 2 [0, 1] [1, 0] [0, 1] [1, 0] [1, 0]
          white_shared).scaled_image ((i * 8 + a : Nat) : Int) ((j * 8 + b : Nat) : Int)
        = pixel_at (sample_tile 0) (a : Int) (b : Int)) ∧
    (∀ k : Int, (k < 0 ∨ 256 ≤ k) →
      (f_all (fun _ _ _ _ _ => white) 2 [0, 1] [1, 0] [0, 1] [1, 0] [1, 0]
        white_shared).scaled_image.data k = white) ∧
    (f_all (fun _ _ _ _ _ => white) 2 [0, 1] [1, 0] [0, 1] [1, 0] [1, 0]
        white_shared).scaled_image
      = update_image (update_image (update_image (update_image white_shared.image
          (white_shared.contour_map 0) 0 0) (white_shared.contour_map 0) 0 8)
          (white_shared.contour_map 0) 8 0) (white_shared.contour_map 0) 8 8 :=
  white_image_end_to_end (fun _ _ _ _ _ => white) 2 (by decide)
    [0, 1] [1, 0] [0, 1] [1, 0] [1, 0]
    (by decide) (by decide) (by decide) (by decide) (by decide)
    white_shared rfl rfl (fun _ _ _ => rfl) (fun _ _ => ⟨rfl, rfl⟩)

/-- C11 (uniform images): for an image whose pixels `0 .. x*y-1` all have the colour `c`,
with sigma = 200 and step = 8, after `sample_grid` has been run by all workers every
interior cell `grid[i][j]`, `i < p`, `j < q`, is 0 when the luminance of `c` is `> 200` and
1 when it is `<= 200`. -/
theorem uniform_image_interior (P : Nat) (hP : 1 ≤ P) (ws1 ws2 ws3 : List Nat)
    (h1 : all_workers P ws1) (h2 : all_workers P ws2) (h3 : all_workers P ws3)
    (grid : Grid) (image : ppm_image) (c : ppm_pixel)
    (huni : ∀ k : Int, 0 ≤ k → k < ((image.x * image.y : Nat) : Int) → image.data k = c)
    (i j : Nat) (hi : i < image.x / STEP) (hj : j < image.y / STEP) :
    (luminance c > 200 →
      sample_grid_all ws1 ws2 ws3 grid image STEP STEP SIGMA P i j = 0) ∧
    (luminance c ≤ 200 →
      sample_grid_all ws1 ws2 ws3 grid image STEP STEP SIGMA P i j = 1) := by
  rw [(sample_grid_all_spec P hP ws1 ws2 ws3 h1 h2 h3 grid image STEP STEP SIGMA i j).1
    ⟨le_of_lt hi, le_of_lt hj⟩]
  have hlt := regular_index_lt image.x image.y STEP STEP i j hi hj
  have hd : image.data ((i * STEP * image.y + j * STEP : Nat) : Int) = c :=
    huni _ (Int.ofNat_nonneg _) (Int.ofNat_lt.2 hlt)
  have hs : (SIGMA : uchar).val = 200 := rfl
  simp only [sampled, hi, hj, if_true, hd, sample_cell_eq, cell_of, hs]
  constructor
  · intro h
    rw [if_neg (by omega)]
  · intro h
    rw [if_pos h]

/-- Witness of C11: the 16 x 16 white image (luminance 255), two workers, cell (1, 1). -/
theorem uniform_image_interior_witness :
    (luminance white > 200 →
      sample_grid_all [1, 0] [0, 1] [1, 0] (fun _ _ => 7) ⟨16, 16, fun _ => white⟩
        STEP STEP SIGMA 2 1 1 = 0) ∧
    (luminance white ≤ 200 →
      sample_grid_all [1, 0] [0, 1] [1, 0] (fun _ _ => 7) ⟨16, 16, fun _ => white⟩
        STEP STEP SIGMA 2 1 1 = 1) :=
  uniform_image_interior 2 (by decide) [1, 0] [0, 1] [1, 0] (by decide) (by decide)
    (by decide) (fun _ _ => 7) ⟨16, 16, fun _ => white⟩ white (fun _ _ _ => rfl) 1 1
    (by decide) (by decide)

/-- C12 (rescaler output size): for a source image with `x > 2048` or `y > 2048` and the
2048 x 2048 target buffer allocated by `main`, the image returned by `rescale_image` is the
target buffer, has dimensions exactly 2048 x 2048, and every channel of every pixel of it
lies in [0, 255]. -/
theorem rescale_output_size (sample_bicubic : Bicubic) (new_image image : ppm_image)
    (thread_count thread_id : Nat) (hbig : image.x > 2048 ∨ image.y > 2048)
    (hX : new_image.x = 2048) (hY : new_image.y = 2048) :
    (rescale_image sample_bicubic new_image image thread_count thread_id).1
      = (rescale_image sample_bicubic new_image image thread_count thread_id).2 ∧
    (rescale_image sample_bicubic new_image image thread_count thread_id).1.x = 2048 ∧
    (rescale_image sample_bicubic new_image image thread_count thread_id).1.y = 2048 ∧
    ∀ k : Int,
      ((rescale_image sample_bicubic new_image image thread_count thread_id).1.data k).red.val
        ≤ 255 ∧
      ((rescale_image sample_bicubic new_image image thread_count thread_id).1.data k).green.val
        ≤ 255 ∧
      ((rescale_image sample_bicubic new_image image thread_count thread_id).1.data k).blue.val
        ≤ 255 := by
  have hnot : ¬ (image.x ≤ RESCALE_X ∧ image.y ≤ RESCALE_Y) := by
    unfold RESCALE_X RESCALE_Y
    omega
  have hinv := rescale_loop_inv sample_bicubic new_image image thread_count thread_id
  simp only [rescale_image, hnot, if_false]
  refine ⟨trivial, by rw [hinv.1, hX], by rw [hinv.2, hY], fun k => ⟨?_, ?_, ?_⟩⟩
  · exact Nat.le_of_lt_succ (Fin.isLt _)
  · exact Nat.le_of_lt_succ (Fin.isLt _)
  · exact Nat.le_of_lt_succ (Fin.isLt _)

/-- Witness of C12: a 4096 x 10 source, the 2048 x 2048 target, worker 1 of 4. -/
theorem rescale_output_size_witness :
    (rescale_image (fun _ _ _ _ _ => white) ⟨2048, 2048, fun _ => ⟨0, 0, 0⟩⟩
        ⟨4096, 10, fun _ => white⟩ 4 1).1
      = (rescale_image (fun _ _ _ _ _ => white) ⟨2048, 2048, fun _ => ⟨0, 0, 0⟩⟩
        ⟨4096, 10, fun _ => white⟩ 4 1).2 ∧
    (rescale_image (fun _ _ _ _ _ => white) ⟨2048, 2048, fun _ => ⟨0, 0, 0⟩⟩
        ⟨4096, 10, fun _ => white⟩ 4 1).1.x = 2048 ∧
    (rescale_image (fun _ _ _ _ _ => white) ⟨2048, 2048, fun _ => ⟨0, 0, 0⟩⟩
        ⟨4096, 10, fun _ => white⟩ 4 1).1.y = 2048 ∧
    ∀ k : Int,
      ((rescale_image (fun _ _ _ _ _ => white) ⟨2048, 2048, fun _ => ⟨0, 0, 0⟩⟩
        ⟨4096, 10, fun _ => white⟩ 4 1).1.data k).red.val ≤ 255 ∧
      ((rescale_image (fun _ _ _ _ _ => white) ⟨2048, 2048, fun _ => ⟨0, 0, 0⟩⟩
        ⟨4096, 10, fun _ => white⟩ 4 1).1.data k).green.val ≤ 255 ∧
      ((rescale_image (fun _ _ _ _ _ => white) ⟨2048, 2048, fun _ => ⟨0, 0, 0⟩⟩
        ⟨4096, 10, fun _ => white⟩ 4 1).1.data k).blue.val ≤ 255 :=
  rescale_output_size (fun _ _ _ _ _ => white) ⟨2048, 2048, fun _ => ⟨0, 0, 0⟩⟩
    ⟨4096, 10, fun _ => white⟩ 4 1 (Or.inl (by decide)) rfl rfl

/-- C13 (worker phase sequence, as the code runs it): for every input image the worker
runs the phases RESCALE, SAMPLE_MAIN, SAMPLE_RIGHT, SAMPLE_BOTTOM, MARCH in this order and
then exits; its trace is RESCALE, BARRIER, SAMPLE_MAIN, BARRIER, SAMPLE_RIGHT, BARRIER,
SAMPLE_BOTTOM, BARRIER, BARRIER, MARCH, BARRIER, DONE (six barrier waits) when the image
needs no rescale, with one more BARRIER right after RESCALE (seven barrier waits) when it
is rescaled. -/
theorem worker_event_trace (image : ppm_image) :
    (f_events image).filter (fun e => e ≠ Event.BARRIER)
      = [Event.RESCALE, Event.SAMPLE_MAIN, Event.SAMPLE_RIGHT, Event.SAMPLE_BOTTOM,
         Event.MARCH, Event.DONE] ∧
    f_events image
      = (if image.x ≤ 2048 ∧ image.y ≤ 2048 then
          [Event.RESCALE, Event.BARRIER, Event.SAMPLE_MAIN, Event.BARRIER,
           Event.SAMPLE_RIGHT, Event.BARRIER, Event.SAMPLE_BOTTOM, Event.BARRIER,
           Event.BARRIER, Event.MARCH, Event.BARRIER, Event.DONE]
        else
          [Event.RESCALE, Event.BARRIER, Event.BARRIER, Event.SAMPLE_MAIN, Event.BARRIER,
           Event.SAMPLE_RIGHT, Event.BARRIER, Event.SAMPLE_BOTTOM, Event.BARRIER,
           Event.BARRIER, Event.MARCH, Event.BARRIER, Event.DONE]) ∧
    (f_events image).count Event.BARRIER
      = (if image.x ≤ 2048 ∧ image.y ≤ 2048 then 6 else 7) := by
  by_cases h : image.x ≤ RESCALE_X ∧ image.y ≤ RESCALE_Y
  · have h' : image.x ≤ 2048 ∧ image.y ≤ 2048 := h
    simp only [f_events, rescale_image_events, sample_grid_events, h, h', if_true]
    decide
  · have h' : ¬ (image.x ≤ 2048 ∧ image.y ≤ 2048) := h
    simp only [f_events, rescale_image_events, sample_grid_events, h, h', if_false]
    decide

/-- C13, the claim refuted as stated: on the 8 x 16 image `wide_image` (no rescale) the
trace of the worker is not the sequence with one barrier wait after each phase, and it
holds six barrier waits, not five. -/
theorem worker_trace_not_five_barriers :
    f_events wide_image ≠ spec_events ∧
    spec_events.count Event.BARRIER = 5 ∧
    (f_events wide_image).count Event.BARRIER = 6 := by
  decide

/-- C14 (march write footprint): for a binary grid and an atlas of 16 tiles of
`step x step`, `march` run by worker `t` leaves unchanged every sample of the pixel array
that is not a pixel with row in `[start_t*step, end_t*step)` and column in `[0, q*step)`; in
particular every pixel `(r, c)` of the image outside these rows or columns keeps its value;
and the row ranges of two different workers have no row in common. -/
theorem march_write_footprint (P t : Nat) (image : ppm_image) (grid : Grid)
    (contour_map : ContourMap) (step : Nat)
    (hbin : ∀ i j, i ≤ image.x / step → j ≤ image.y / step → grid i j = 0 ∨ grid i j = 1)
    (hatlas : ∀ k, k < CONTOUR_CONFIG_COUNT →
      (contour_map k).x = step ∧ (contour_map k).y = step) :
    (∀ k : Int,
      (¬ ∃ r c : Nat, part_start (image.x / step) P t * step ≤ r ∧
        r < part_end (image.x / step) P t * step ∧ c < image.y / step * step ∧
        k = ((r * image.y + c : Nat) : Int)) →
      (march image grid contour_map step step P t).data k = image.data k) ∧
    (∀ r c : Nat, c < image.y →
      ¬ (part_start (image.x / step) P t * step ≤ r ∧
        r < part_end (image.x / step) P t * step ∧ c < image.y / step * step) →
      pixel_at (march image grid contour_map step step P t) (r : Int) (c : Int)
        = pixel_at image (r : Int) (c : Int)) ∧
    (∀ t' r : Nat, t' ≠ t →
      ¬ (part_start (image.x / step) P t * step ≤ r ∧
        r < part_end (image.x / step) P t * step ∧
        part_start (image.x / step) P t' * step ≤ r ∧
        r < part_end (image.x / step) P t' * step)) := by
  have hfit := tiles_fit_of_binary _ _ grid contour_map step hbin hatlas
  refine ⟨fun k hk => march_frame image grid contour_map step P t hfit k hk, ?_, ?_⟩
  · intro r c hc hout
    have hy := (march_dims image grid contour_map step P t hfit).2
    have e : (r : Int) * (image.y : Int) + (c : Int) = ((r * image.y + c : Nat) : Int) := by
      push_cast; ring
    unfold pixel_at
    rw [hy, e]
    apply march_frame image grid contour_map step P t hfit
    rintro ⟨r', c', h1, h2, h3, he⟩
    have hc' : c' < image.y := lt_of_lt_of_le h3 (Nat.div_mul_le_self _ _)
    have hinj := pixel_index_inj r c r' c' image.y hc hc' (Int.ofNat_inj.1 he)
    rw [hinj.1, hinj.2] at hout
    exact hout ⟨h1, h2, h3⟩
  · rintro t' r hne ⟨h1, h2, h3, h4⟩
    rcases Nat.lt_or_gt_of_ne hne with hlt | hgt
    · have := Nat.mul_le_mul_right step (part_end_le_start (image.x / step) P t' t hlt)
      omega
    · have := Nat.mul_le_mul_right step (part_end_le_start (image.x / step) P t t' hgt)
      omega

/-- Witness of C14: a 16 x 17 image, the grid whose cells are all 1, worker 1 of 2. -/
theorem march_write_footprint_witness :
    (∀ k : Int,
      (¬ ∃ r c : Nat, part_start (16 / 8) 2 1 * 8 ≤ r ∧
        r < part_end (16 / 8) 2 1 * 8 ∧ c < 17 / 8 * 8 ∧
        k = ((r * 17 + c : Nat) : Int)) →
      (march ⟨16, 17, fun _ => white⟩ (fun _ _ => 1) sample_tile 8 8 2 1).data k = white) ∧
    (∀ r c : Nat, c < 17 →
      ¬ (part_start (16 / 8) 2 1 * 8 ≤ r ∧
        r < part_end (16 / 8) 2 1 * 8 ∧ c < 17 / 8 * 8) →
      pixel_at (march ⟨16, 17, fun _ => white⟩ (fun _ _ => 1) sample_tile 8 8 2 1)
          (r : Int) (c : Int)
        = pixel_at ⟨16, 17, fun _ => white⟩ (r : Int) (c : Int)) ∧
    (∀ t' r : Nat, t' ≠ 1 →
      ¬ (part_start (16 / 8) 2 1 * 8 ≤ r ∧
        r < part_end (16 / 8) 2 1 * 8 ∧
        part_start (16 / 8) 2 t' * 8 ≤ r ∧
        r < part_end (16 / 8) 2 t' * 8)) :=
  march_write_footprint 2 1 ⟨16, 17, fun _ => white⟩ (fun _ _ => 1) sample_tile 8
    (fun _ _ _ _ => Or.inr rfl) (fun _ _ => ⟨rfl, rfl⟩)

/-- C15 (thresholding, as the code computes it): for every pixel and every threshold
`sigma`, the cell value written by `sample_grid` is 1 exactly when the integer quotient
`(R + G + B) / 3` is `<= sigma`, that is when `R + G + B <= 3*sigma + 2`, and 0 otherwise. -/
theorem sample_cell_truncated_mean (px : ppm_pixel) (sigma : uchar) :
    (sample_cell px sigma = 1 ↔ px.red.val + px.green.val + px.blue.val ≤ 3 * sigma.val + 2) ∧
    (sample_cell px sigma = 0 ↔ ¬ px.red.val + px.green.val + px.blue.val ≤ 3 * sigma.val + 2) ∧
    (sample_cell px sigma = 1 ↔ (px.red.val + px.green.val + px.blue.val) / 3 ≤ sigma.val) := by
  rw [sample_cell_eq]
  unfold cell_of luminance
  by_cases h : (px.red.val + px.green.val + px.blue.val) / 3 ≤ sigma.val
  · have h' : px.red.val + px.green.val + px.blue.val ≤ 3 * sigma.val + 2 := by omega
    simp [h, h']
  · have h' : ¬ px.red.val + px.green.val + px.blue.val ≤ 3 * sigma.val + 2 := by omega
    simp [h, h']

/-- C15, the claim refuted as stated: for the pixel (201, 200, 200) and sigma = 200 the
arithmetic mean 601/3 exceeds sigma (`R + G + B <= 3*sigma` fails), yet the cell value
written is 1. -/
theorem sample_cell_not_exact_mean :
    ¬ ((sample_cell ⟨201, 200, 200⟩ SIGMA = 1 ↔
        (201 : uchar).val + (200 : uchar).val + (200 : uchar).val ≤ 3 * SIGMA.val)) := by
  decide

/-- C16 (sampling reads), evaluation of the code where it departs from the claim: on the
image `tall_image` of 16 rows and 1 column (step 8, one worker) the right-column loop reads
the indices 15 and 23 of the pixel array, and 23 is not below its length `x * y = 16`. -/
theorem right_column_read_outside_image :
    1 ≤ tall_image.x ∧ 1 ≤ tall_image.y ∧ tall_image.x * tall_image.y = 16 ∧
    sample_grid_right_reads tall_image STEP 1 0 = [15, 23] ∧
    (23 : Int) ∈ sample_grid_reads tall_image STEP STEP 1 0 ∧
    ¬ in_image tall_image 23 := by
  decide

/-- C17 (marching accesses, amended): for an image of `x` rows and `y` columns, a grid
whose cells `(i, j)`, `i <= x/step`, `j <= y/step`, are 0 or 1, an atlas of 16 tiles of
`step x step` and any worker, every access of `march` is in bounds: the grid cells read
lie inside the `(x/step + 1) x (y/step + 1)` grid, the atlas entry read is below 16, the
tile indices read are below `step * step`, the image indices written are below `x * y`. -/
theorem march_accesses_in_bounds (image : ppm_image) (grid : Grid) (contour_map : ContourMap)
    (step P t : Nat)
    (hbin : ∀ i j, i ≤ image.x / step → j ≤ image.y / step → grid i j = 0 ∨ grid i j = 1)
    (hatlas : ∀ k, k < CONTOUR_CONFIG_COUNT →
      (contour_map k).x = step ∧ (contour_map k).y = step) :
    ∀ a, a ∈ march_accesses image grid contour_map step step P t → a.in_bounds image step :=
  fun a ha => march_accesses_ok image grid contour_map step P t hbin hatlas a ha

/-- Witness of C17: a 16 x 17 image, the grid whose cells are all 1, worker 1 of 2, the
write of the image index 136 (pixel (8, 0), first pixel of the block (1, 0)). -/
theorem march_accesses_in_bounds_witness :
    Access.image_pixel 136
      ∈ march_accesses ⟨16, 17, fun _ => white⟩ (fun _ _ => 1) sample_tile 8 8 2 1 ∧
    (Access.image_pixel 136).in_bounds ⟨16, 17, fun _ => white⟩ 8 :=
  ⟨by decide,
    march_accesses_in_bounds ⟨16, 17, fun _ => white⟩ (fun _ _ => 1) sample_tile 8 2 1
      (fun _ _ _ _ => Or.inr rfl) (fun _ _ => ⟨rfl, rfl⟩) (Access.image_pixel 136)
      (by decide)⟩

/-- C17, the claim refuted as stated: with an 8 x 8 image, step 8, an atlas whose 16 tiles
are 8 x 8 and the grid of size 2 x 2 whose cells all hold 2 (not binary), the code computed
by `march` is 30, the tile taken is the one found behind the atlas, and `update_image`
reads the tile index 72 (not below 64) and writes the image index 64 (not below 64). -/
theorem march_out_of_bounds_on_non_binary_grid :
    (∀ k, k < CONTOUR_CONFIG_COUNT →
      (atlas_then_large k).x = 8 ∧ (atlas_then_large k).y = 8) ∧
    config_code (fun _ _ => 2) 0 0 = 30 ∧
    Access.tile_pixel 72
      ∈ march_accesses ⟨8, 8, fun _ => white⟩ (fun _ _ => 2) atlas_then_large 8 8 1 0 ∧
    ¬ (Access.tile_pixel 72).in_bounds ⟨8, 8, fun _ => white⟩ 8 ∧
    Access.image_pixel 64
      ∈ march_accesses ⟨8, 8, fun _ => white⟩ (fun _ _ => 2) atlas_then_large 8 8 1 0 ∧
    ¬ (Access.image_pixel 64).in_bounds ⟨8, 8, fun _ => white⟩ 8 := by
  decide

/-- C18 (balanced partition): for `P >= 1` and `t < P`, the number of indices in the range
of worker `t` is `N / P` or the ceiling `(N + P - 1) / P`, the loads of two workers differ
by at most one, the `MIN` with `N` does not change the end bound `(t+1)*N/P`, and the
range is well formed (`start <= end`). -/
theorem balanced_partition (N P t : Nat) (hP : 1 ≤ P) (ht : t < P) :
    (part_size N P t = N / P ∨ part_size N P t = (N + P - 1) / P) ∧
    (∀ t', t' < P → part_size N P t ≤ part_size N P t' + 1) ∧
    part_end N P t = (t + 1) * N / P ∧
    part_size N P t = (t + 1) * N / P - t * N / P ∧
    part_start N P t ≤ part_end N P t := by
  have hs := part_size_cases N P t hP ht
  refine ⟨?_, ?_, part_end_eq N P t ht, ?_, ?_⟩
  · rcases hs with h | ⟨h, hmod⟩
    · exact Or.inl h
    · exact Or.inr (by rw [h, ceil_div_of_not_dvd N P hP hmod])
  · intro t' ht'
    have hs' := part_size_cases N P t' hP ht'
    rcases hs with h | ⟨h, _⟩ <;> rcases hs' with h' | ⟨h', _⟩ <;> omega
  · unfold part_size part_start
    rw [part_end_eq N P t ht]
  · rw [part_end_eq N P t ht]
    exact Nat.div_le_div_right (Nat.mul_le_mul_right N (Nat.le_succ t))

/-- Witness of C18: 7 indices, 3 workers, worker 1. -/
theorem balanced_partition_witness :
    (part_size 7 3 1 = 7 / 3 ∨ part_size 7 3 1 = (7 + 3 - 1) / 3) ∧
    (∀ t', t' < 3 → part_size 7 3 1 ≤ part_size 7 3 t' + 1) ∧
    part_end 7 3 1 = (1 + 1) * 7 / 3 ∧
    part_size 7 3 1 = (1 + 1) * 7 / 3 - 1 * 7 / 3 ∧
    part_start 7 3 1 ≤ part_end 7 3 1 :=
  balanced_partition 7 3 1 (by decide) (by decide)

end MarchingSquares
